import Mathlib

/-!
Verification of the `entropy_check` static-analysis core (scanner, import
graph builder, check modules, orchestrating facade) against its
natural-language specification.  Python sources are shallowly embedded:
file paths are modelled root-relative (`pathlib.relative_to(root)` is the
identity), the file tree is an explicit list of entries carrying the two
failure modes of `Path.read_bytes` / `Path.read_text`, and every regex of
the source is compiled by hand into an equivalent deterministic matcher
(greedy quantifier semantics of CPython `re`, validated case by case).
-/

namespace EntropyCheck

/-- Opening-brace character, written via its code point. -/
def lbrace : Char := Char.ofNat 123

/-- Closing-brace character, written via its code point. -/
def rbrace : Char := Char.ofNat 125

/-- Python regex `\w` (ASCII word character). -/
def wordChar (c : Char) : Bool := c.isAlphanum || c = '_'

/-- Single-quote character, written via its code point. -/
def squote : Char := Char.ofNat 39

/-- Python regex `\s` / `str.strip` whitespace: space, tab, LF, CR, VT, FF. -/
def spaceChar (c : Char) : Bool :=
  c = ' ' || c = '\t' || c = '\n' || c = '\r' || c = '\x0b' || c = '\x0c'

/-- Python `str.strip()` on a character list. -/
def stripWs (l : List Char) : List Char :=
  ((l.dropWhile spaceChar).reverse.dropWhile spaceChar).reverse

/-- Split a character list at every occurrence of `sep` (Python `str.split(sep)`
for a one-character separator: no collapsing, empty pieces kept). -/
def splitOnChar (sep : Char) : List Char → List (List Char)
  | [] => [[]]
  | c :: cs =>
      let rest := splitOnChar sep cs
      if c = sep then [] :: rest
      else match rest with
           | [] => [[c]]
           | r :: rs => (c :: r) :: rs

/-- Python `needle in hay` on strings (substring containment). -/
def lcContains (hay pat : List Char) : Bool :=
  match hay with
  | [] => pat.isPrefixOf ([] : List Char)
  | _ :: t => pat.isPrefixOf hay || lcContains t pat

/-- Substring containment on `String` (Python `in`). -/
def strContains (hay pat : String) : Bool := lcContains hay.data pat.data

/-- Python `str.startswith` on `String`. -/
def strStarts (s pat : String) : Bool := pat.data.isPrefixOf s.data

/-- Python `str.endswith` on `String`. -/
def strEnds (s pat : String) : Bool := pat.data.reverse.isPrefixOf s.data.reverse

/-- Lower-case a character list (ASCII, matching Python `str.lower` on the
inputs that occur here). -/
def lcLower (l : List Char) : List Char := l.map Char.toLower

/-- Non-blank lines of a string (Python `[l for l in s.split('\n') if l.strip()]`). -/
def nonBlankLines (s : String) : List (List Char) :=
  (splitOnChar '\n' s.data).filter (fun l => !(stripWs l).isEmpty)

/-- Python line counting used by the scanner: number of non-blank lines. -/
def countNonBlank (s : String) : Nat := (nonBlankLines s).length

/-- Decimal rendering of a natural number (Python f-string of an int). -/
def natStr (n : Nat) : String := toString n

/-! ## File tree model

An `Entry` is one file of the real file system below the analysis root.
`path` is root-relative with `/` separators.  `bytesOk` models whether
`Path.read_bytes` succeeds (permission/IO errors make it false); `textOk`
models whether UTF-8 decoding succeeds on top of that, so
`Path.read_text` succeeds iff `bytesOk && textOk`.  `content` is the byte
content, rendered as a string. -/

structure Entry where
  path : String
  bytesOk : Bool
  textOk : Bool
  content : String
deriving Repr, DecidableEq

/-- Model of `pathlib.Path.suffix` applied to a root-relative path: the part
of the final path component from its last dot, when that dot is neither the
first nor the last character of the component. -/
def pathSuffix (p : String) : String :=
  let name := ((splitOnChar '/' p.data).getLastD [])
  let i := name.length - 1 - (name.reverse.takeWhile (fun c => c ≠ '.')).length
  if (name.reverse.takeWhile (fun c => c ≠ '.')).length = name.length then ""
  else if i = 0 then ""
  else if i = name.length - 1 then ""
  else String.mk (name.drop i)

/-! ## config.py -/

/-- Per-category line thresholds (`THRESHOLDS` in config.py). -/
def THRESHOLDS (category : String) : Nat :=
  if category = "backend" then 500
  else if category = "frontend" then 300
  else if category = "css" then 600
  else 500

/-- Ignore patterns (`IGNORE_PATTERNS`), matched as plain substrings. -/
def IGNORE_PATTERNS : List String :=
  ["node_modules", "__pycache__", ".git", "yarn.lock", "package-lock.json",
   ".wrangler", "dist", "build", "entropy_check", ".venv", "venv", "env",
   "site-packages", "vault-api"]

/-- Analyzable extensions (`ANALYZE_EXTENSIONS`). -/
def ANALYZE_EXTENSIONS : List String := [".js", ".py", ".css", ".ts", ".jsx", ".tsx"]

/-- Cyclomatic complexity threshold. -/
def COMPLEXITY_THRESHOLD : Nat := 15

/-- Nesting depth threshold. -/
def NESTING_THRESHOLD : Nat := 5

/-- Function length threshold. -/
def FUNCTION_LENGTH_THRESHOLD : Nat := 60

/-- Commented code block threshold. -/
def COMMENTED_BLOCK_THRESHOLD : Nat := 5

/-- Coupling threshold. -/
def COUPLING_THRESHOLD : Nat := 10

/-- Files allowed to have high coupling. -/
def COUPLING_EXCEPTIONS : List String := ["backend/index.js", "frontend/app/index.js"]

/-- God-file threshold. -/
def GOD_FILE_THRESHOLD : Nat := 5

/-- Files expected to be god files. -/
def GOD_FILE_EXCEPTIONS : List String :=
  ["backend/cors.js", "frontend/app/api.js", "frontend/app/state.js"]

/-- Entry points exempt from dead-code reporting (`ENTRY_POINTS`). -/
def ENTRY_POINTS : List String := ["backend/index.js", "frontend/app/index.js", "index.js"]

/-! ## scanner.py -/

/-- `should_ignore`: the path contains one of the ignore substrings. -/
def should_ignore (p : String) : Bool :=
  IGNORE_PATTERNS.any (fun pat => strContains p pat)

/-- `get_threshold`: path-substring-driven threshold selection. -/
def get_threshold (p : String) : Nat :=
  if pathSuffix p = ".css" then THRESHOLDS "css"
  else if strContains p "backend/" || strContains p "worker_api/" then THRESHOLDS "backend"
  else if strContains p "frontend/" then THRESHOLDS "frontend"
  else THRESHOLDS "default"

/-- Hexadecimal digit of a value below 16. -/
def hexDigit (n : Nat) : Char :=
  if n < 10 then Char.ofNat (48 + n) else Char.ofNat (87 + n)

/-- Stand-in for `hashlib.sha256(content).hexdigest()[:16]`: a 16-hex-digit
digest of the content.  The cryptographic mixing itself is irrelevant to every
claim (only determinism and the fixed nonempty output shape are used); a
64-bit polynomial fold rendered in the same format replaces it. -/
def sha256hex16 (s : String) : String :=
  let h := s.data.foldl (fun a c => (a * 131 + c.toNat) % (2 ^ 64)) 5381
  String.mk ((List.range 16).map (fun i => hexDigit (h / 16 ^ (15 - i) % 16)))

/-- `hash_file`: digest of the byte content, `""` when `read_bytes` raises. -/
def hash_file (e : Entry) : String :=
  if e.bytesOk then sha256hex16 e.content else ""

/-- `read_content`: text content, `""` when `read_text` raises
(a permission error or a UTF-8 decode error). -/
def read_content (e : Entry) : String :=
  if e.bytesOk && e.textOk then e.content else ""

structure FileInfo where
  path : String
  lines : Nat
  hash : String
  threshold : Nat
  content : String
deriving Repr, DecidableEq

/-- Scanner filter: a file is kept when no ignore pattern matches and its
suffix is analyzable (`scan_files` loop conditions; every tree entry is a
file, so `is_file()` is always true in the model). -/
def keptFile (e : Entry) : Bool :=
  !(should_ignore e.path) && ANALYZE_EXTENSIONS.contains (pathSuffix e.path)

/-- The record `scan_files` builds for one kept file. -/
def scanRecord (e : Entry) : FileInfo :=
  let content := read_content e
  { path := e.path
    lines := countNonBlank content
    hash := hash_file e
    threshold := get_threshold e.path
    content := content }

/-- `scan_files`: walk the tree in order, keep analyzable files, record each. -/
def scan_files (tree : List Entry) : List FileInfo :=
  (tree.filter keptFile).map scanRecord

/-! ## models.py -/

structure Violation where
  type : String
  severity : String
  file : String
  detail : String
deriving Repr, DecidableEq

/-! ## checks/line_count.py -/

/-- `check_line_counts`.  Python compares `f.lines > f.threshold * 1.5` in
float arithmetic; for the integer magnitudes involved this is exactly
`2 * lines > 3 * threshold`, which is how it is written here. -/
def check_line_counts (files : List FileInfo) : List Violation :=
  files.filterMap (fun f =>
    if f.threshold < f.lines then
      some { type := "lines_exceeded"
             severity := if 3 * f.threshold < 2 * f.lines then "P1" else "P2"
             file := f.path
             detail := natStr f.lines ++ " lines (threshold: " ++ natStr f.threshold ++ ")" }
    else none)

/-! ## checks/duplicates.py — duplicate files

`hash_to_files` is a `defaultdict(list)` filled in file order and iterated in
key-insertion order; it is modelled as an association list where appending to
an existing key keeps the key's position and a fresh key goes to the end. -/

/-- Append `v` to the list stored under `k`, creating the key at the end if
absent (Python `defaultdict(list)[k].append(v)`). -/
def alAppend {α : Type} (l : List (String × List α)) (k : String) (v : α) :
    List (String × List α) :=
  match l with
  | [] => [(k, [v])]
  | (k', vs) :: rest =>
      if k' = k then (k', vs ++ [v]) :: rest else (k', vs) :: alAppend rest k v

/-- Keys of an association list, in order. -/
def alKeys {α : Type} (l : List (String × List α)) : List String := l.map Prod.fst

/-- All values of an association list, flattened in order. -/
def alValues {α : Type} (l : List (String × List α)) : List α :=
  (l.map Prod.snd).flatten

/-- `hash_to_files`: group kept files by content hash, skipping empty hashes. -/
def hashGroups (files : List FileInfo) : List (String × List String) :=
  files.foldl (fun acc f => if f.hash = "" then acc else alAppend acc f.hash f.path) []

/-- The violation built for one duplicate group (first member as `file`, the
rest joined into `detail`). -/
def dupFileViolation (paths : List String) : Violation :=
  { type := "duplicate_file"
    severity := "P2"
    file := paths.headD ""
    detail := "Identical to: " ++ String.intercalate ", " (paths.drop 1) }

/-- `check_duplicate_files`: one violation per hash group of two or more. -/
def check_duplicate_files (files : List FileInfo) : List Violation :=
  (hashGroups files).filterMap (fun gp =>
    if 1 < gp.2.length then some (dupFileViolation gp.2) else none)

theorem alKeys_alAppend {α : Type} (l : List (String × List α)) (k : String) (v : α) :
    alKeys (alAppend l k v) = if k ∈ alKeys l then alKeys l else alKeys l ++ [k] := by
  induction l with
  | nil => simp [alAppend, alKeys]
  | cons p rest ih =>
    obtain ⟨k', vs⟩ := p
    by_cases h : k' = k
    · subst h
      simp [alAppend, alKeys]
    · simp only [alAppend, h, if_neg, ite_false, alKeys, List.map_cons, List.mem_cons]
      rw [show alKeys (alAppend rest k v) = (alAppend rest k v).map Prod.fst from rfl] at ih
      by_cases hm : k ∈ rest.map Prod.fst
      · simp only [alKeys] at ih
        simp [hm, ih, Ne.symm h]
      · simp only [alKeys] at ih
        simp [hm, ih, Ne.symm h]

theorem alValues_alAppend {α : Type} (l : List (String × List α)) (k : String) (v : α) :
    (alValues (alAppend l k v)).Perm (v :: alValues l) := by
  induction l with
  | nil => simp [alAppend, alValues]
  | cons p rest ih =>
    obtain ⟨k', vs⟩ := p
    by_cases h : k' = k
    · subst h
      have e : alAppend ((k', vs) :: rest) k' v = (k', vs ++ [v]) :: rest := by
        simp [alAppend]
      rw [e]
      show ((vs ++ [v]) ++ alValues rest).Perm (v :: (vs ++ alValues rest))
      have h1 : (vs ++ [v]).Perm ([v] ++ vs) := List.perm_append_comm
      simpa using h1.append_right (alValues rest)
    · have e : alAppend ((k', vs) :: rest) k v = (k', vs) :: alAppend rest k v := by
        simp [alAppend, h]
      rw [e]
      show (vs ++ alValues (alAppend rest k v)).Perm (v :: (vs ++ alValues rest))
      exact (ih.append_left vs).trans List.perm_middle

theorem alAppend_mem_self {α : Type} (l : List (String × List α)) (k : String) (v : α)
    (hk : (alKeys l).Nodup) :
    ∃ ps, (k, ps) ∈ alAppend l k v ∧ v ∈ ps ∧
      ∀ qs, (k, qs) ∈ l → qs.Subset ps := by
  induction l with
  | nil => exact ⟨[v], by simp [alAppend], by simp, by simp⟩
  | cons p rest ih =>
    obtain ⟨k', vs⟩ := p
    by_cases h : k' = k
    · subst h
      refine ⟨vs ++ [v], by simp [alAppend], by simp, ?_⟩
      intro qs hq
      rcases List.mem_cons.mp hq with hq | hq
      · cases hq
        intro x hx
        exact List.mem_append_left _ hx
      · exfalso
        simp only [alKeys, List.map_cons, List.nodup_cons] at hk
        exact hk.1 (List.mem_map.mpr ⟨(k', qs), hq, rfl⟩)
    · simp only [alKeys, List.map_cons, List.nodup_cons] at hk
      obtain ⟨ps, hmem, hv, hsub⟩ := ih hk.2
      refine ⟨ps, ?_, hv, ?_⟩
      · simp only [alAppend, h, ite_false]
        exact List.mem_cons_of_mem _ hmem
      · intro qs hq
        rcases List.mem_cons.mp hq with hq | hq
        · cases hq
          exact absurd rfl h
        · exact hsub qs hq

theorem alAppend_mem_elim {α : Type} (l : List (String × List α)) (k : String) (v : α)
    (k₀ : String) (ps : List α) (h : (k₀, ps) ∈ alAppend l k v) :
    (k₀, ps) ∈ l ∨ (k₀ = k ∧ ∃ qs, ps = qs ++ [v] ∧ ((k, qs) ∈ l ∨ qs = [])) := by
  induction l with
  | nil =>
    simp only [alAppend, List.mem_singleton, Prod.mk.injEq] at h
    exact Or.inr ⟨h.1, [], by simp [h.2], Or.inr rfl⟩
  | cons p rest ih =>
    obtain ⟨k', vs⟩ := p
    by_cases hk : k' = k
    · subst hk
      have e : alAppend ((k', vs) :: rest) k' v = (k', vs ++ [v]) :: rest := by
        simp [alAppend]
      rw [e, List.mem_cons, Prod.mk.injEq] at h
      rcases h with ⟨h1, h2⟩ | h
      · exact Or.inr ⟨h1, vs, h2, Or.inl (by simp)⟩
      · exact Or.inl (List.mem_cons_of_mem _ h)
    · have e : alAppend ((k', vs) :: rest) k v = (k', vs) :: alAppend rest k v := by
        simp [alAppend, hk]
      rw [e, List.mem_cons] at h
      rcases h with h | h
      · exact Or.inl (by simp [h])
      · rcases ih h with h' | ⟨hk0, qs, hps, hqs⟩
        · exact Or.inl (List.mem_cons_of_mem _ h')
        · refine Or.inr ⟨hk0, qs, hps, ?_⟩
          rcases hqs with h'' | h''
          · exact Or.inl (List.mem_cons_of_mem _ h'')
          · exact Or.inr h''

theorem headD_mem {α : Type} {l : List α} (h : l ≠ []) (d : α) : l.headD d ∈ l := by
  cases l with
  | nil => exact absurd rfl h
  | cons a t => simp

theorem two_mem_one_lt_length {α : Type} {l : List α} {x y : α}
    (hx : x ∈ l) (hy : y ∈ l) (hne : x ≠ y) : 1 < l.length := by
  cases l with
  | nil => cases hx
  | cons a t =>
    cases t with
    | nil =>
      simp only [List.mem_singleton] at hx hy
      exact absurd (hx.trans hy.symm) hne
    | cons b u => simp [Nat.lt_add_of_pos_left]

theorem alValues_subset {α : Type} {l : List (String × List α)} {k : String}
    {vs : List α} (h : (k, vs) ∈ l) : ∀ x ∈ vs, x ∈ alValues l := by
  intro x hx
  induction l with
  | nil => cases h
  | cons p rest ih =>
    rcases List.mem_cons.mp h with h' | h'
    · subst h'
      exact List.mem_append_left _ hx
    · exact List.mem_append_right _ (ih h')

theorem alKeyUnique {α : Type} {l : List (String × List α)} (hk : (alKeys l).Nodup)
    {k : String} {ps qs : List α} (h1 : (k, ps) ∈ l) (h2 : (k, qs) ∈ l) : ps = qs := by
  induction l with
  | nil => cases h1
  | cons p rest ih =>
    simp only [alKeys, List.map_cons, List.nodup_cons] at hk
    rcases List.mem_cons.mp h1 with h1' | h1' <;> rcases List.mem_cons.mp h2 with h2' | h2'
    · rw [← h1'] at h2'
      exact (Prod.ext_iff.mp h2').2.symm
    · exfalso
      apply hk.1
      rw [← h1']
      exact List.mem_map.mpr ⟨(k, qs), h2', rfl⟩
    · exfalso
      apply hk.1
      rw [← h2']
      exact List.mem_map.mpr ⟨(k, ps), h1', rfl⟩
    · exact ih hk.2 h1' h2'

theorem alAppend_mem_mono {α : Type} {l : List (String × List α)} (hk : (alKeys l).Nodup)
    {k₀ : String} {ps : List α} (h : (k₀, ps) ∈ l) (k : String) (v : α) :
    ∃ ps', (k₀, ps') ∈ alAppend l k v ∧ ps.Subset ps' := by
  by_cases hkk : k₀ = k
  · subst hkk
    obtain ⟨ps', hmem, _, hsub⟩ := alAppend_mem_self l k₀ v hk
    exact ⟨ps', hmem, hsub ps h⟩
  · refine ⟨ps, ?_, List.Subset.refl ps⟩
    induction l with
    | nil => cases h
    | cons p rest ih =>
      obtain ⟨k', vs⟩ := p
      simp only [alKeys, List.map_cons, List.nodup_cons] at hk
      by_cases hck : k' = k
      · subst hck
        have e : alAppend ((k', vs) :: rest) k' v = (k', vs ++ [v]) :: rest := by
          simp [alAppend]
        rw [e]
        rcases List.mem_cons.mp h with h' | h'
        · exact absurd (congrArg Prod.fst h') hkk
        · exact List.mem_cons_of_mem _ h'
      · have e : alAppend ((k', vs) :: rest) k v = (k', vs) :: alAppend rest k v := by
          simp [alAppend, hck]
        rw [e]
        rcases List.mem_cons.mp h with h' | h'
        · rw [h']
          exact List.mem_cons_self _ _
        · exact List.mem_cons_of_mem _ (ih hk.2 h')

/-- One step of the `hash_to_files` grouping loop. -/
def hashStep (acc : List (String × List String)) (f : FileInfo) :
    List (String × List String) :=
  if f.hash = "" then acc else alAppend acc f.hash f.path

theorem hashGroups_eq_foldl (files : List FileInfo) :
    hashGroups files = files.foldl hashStep [] := rfl

theorem hashStep_keys_nodup (acc : List (String × List String)) (f : FileInfo)
    (hk : (alKeys acc).Nodup) : (alKeys (hashStep acc f)).Nodup := by
  unfold hashStep
  by_cases hh : f.hash = ""
  · simpa [hh] using hk
  · simp only [hh, ite_false]
    rw [alKeys_alAppend]
    by_cases hm : f.hash ∈ alKeys acc
    · simpa [hm] using hk
    · simp only [hm, ite_false]
      rw [List.nodup_append]
      exact ⟨hk, List.nodup_singleton _, by simpa using hm⟩

/-- Group membership is monotone along the grouping fold: once a path is in
its hash's group it stays there (the group can only grow). -/
theorem hashFold_mono (files : List FileInfo) (acc : List (String × List String))
    (hk : (alKeys acc).Nodup) (k : String) (ps : List String) (h : (k, ps) ∈ acc) :
    ∃ ps', (k, ps') ∈ files.foldl hashStep acc ∧ ps.Subset ps' := by
  induction files generalizing acc ps with
  | nil => exact ⟨ps, h, List.Subset.refl ps⟩
  | cons f rest ih =>
    rw [List.foldl_cons]
    by_cases hh : f.hash = ""
    · have e : hashStep acc f = acc := by simp [hashStep, hh]
      rw [e]
      exact ih acc (by simpa [e] using hashStep_keys_nodup acc f hk) ps h
    · have e : hashStep acc f = alAppend acc f.hash f.path := by simp [hashStep, hh]
      obtain ⟨ps₁, hmem₁, hsub₁⟩ := alAppend_mem_mono hk h f.hash f.path
      obtain ⟨ps₂, hmem₂, hsub₂⟩ :=
        ih (alAppend acc f.hash f.path)
          (by simpa [e] using hashStep_keys_nodup acc f hk) ps₁ hmem₁
      exact ⟨ps₂, by simpa [e] using hmem₂, fun x hx => hsub₂ (hsub₁ hx)⟩

/-- Grouping invariant: key uniqueness, the flattened members are a
permutation of the nonempty-hash file paths, and every nonempty-hash file
lands in its hash's group. -/
theorem hashFold_inv (files : List FileInfo) (acc : List (String × List String))
    (hk : (alKeys acc).Nodup) :
    (alKeys (files.foldl hashStep acc)).Nodup ∧
    (alValues (files.foldl hashStep acc)).Perm
      (alValues acc ++ (files.filter (fun f => !(f.hash == ""))).map FileInfo.path) ∧
    (∀ f ∈ files, f.hash ≠ "" →
      ∃ ps, (f.hash, ps) ∈ files.foldl hashStep acc ∧ f.path ∈ ps) := by
  induction files generalizing acc with
  | nil => exact ⟨hk, by simp, by intro f hf; cases hf⟩
  | cons f rest ih =>
    by_cases hh : f.hash = ""
    · have e : (f :: rest).foldl hashStep acc = rest.foldl hashStep acc := by
        simp [List.foldl_cons, hashStep, hh]
      obtain ⟨h1, h2, h3⟩ := ih acc hk
      refine ⟨e ▸ h1, ?_, ?_⟩
      · rw [e]
        simpa [hh] using h2
      · intro u hu hne
        rcases List.mem_cons.mp hu with hu' | hu'
        · exact absurd (hu' ▸ hh) hne
        · obtain ⟨ps, hmem, hp⟩ := h3 u hu' hne
          exact ⟨ps, e ▸ hmem, hp⟩
    · have e : (f :: rest).foldl hashStep acc = rest.foldl hashStep (alAppend acc f.hash f.path) := by
        simp [List.foldl_cons, hashStep, hh]
      have hk' : (alKeys (alAppend acc f.hash f.path)).Nodup := by
        rw [alKeys_alAppend]
        by_cases hm : f.hash ∈ alKeys acc
        · simpa [hm] using hk
        · simp only [hm, ite_false]
          rw [List.nodup_append]
          exact ⟨hk, List.nodup_singleton _, by simpa using hm⟩
      obtain ⟨h1, h2, h3⟩ := ih (alAppend acc f.hash f.path) hk'
      refine ⟨e ▸ h1, ?_, ?_⟩
      · rw [e]
        refine h2.trans ?_
        have hv := alValues_alAppend acc f.hash f.path
        refine (hv.append_right _).trans ?_
        have hcond : (f.hash == "") = false := by simpa using hh
        simp only [List.filter_cons, hcond, Bool.not_false, if_true, List.map_cons]
        exact List.perm_middle.symm
      · intro u hu hne
        rcases List.mem_cons.mp hu with hu' | hu'
        · subst hu'
          obtain ⟨ps, hmem, hv, _⟩ := alAppend_mem_self acc u.hash u.path hk
          obtain ⟨ps', hmem', hsub⟩ :=
            hashFold_mono rest (alAppend acc u.hash u.path) hk' u.hash ps hmem
          exact ⟨ps', e ▸ hmem', hsub hv⟩
        · obtain ⟨ps, hmem, hp⟩ := h3 u hu' hne
          exact ⟨ps, e ▸ hmem, hp⟩

/-- Each group of two or more duplicates yields its violation exactly once,
provided no path sits in two groups. -/
theorem dup_count_one (groups : List (String × List String))
    (hnd : (alValues groups).Nodup) {h : String} {ps : List String}
    (hmem : (h, ps) ∈ groups) (hlen : 1 < ps.length) :
    ((groups.filterMap (fun gp =>
        if 1 < gp.2.length then some (dupFileViolation gp.2) else none)).count
      (dupFileViolation ps)) = 1 := by
  induction groups with
  | nil => cases hmem
  | cons gp rest ih =>
    have hnda : (alValues (gp :: rest)) = gp.2 ++ alValues rest := by
      simp [alValues]
    rw [hnda, List.nodup_append] at hnd
    obtain ⟨hn1, hn2, hdisj⟩ := hnd
    have hpsne : ps ≠ [] := by
      intro h0
      rw [h0] at hlen
      simp at hlen
    rcases List.mem_cons.mp hmem with hmem' | hmem'
    · have hgp2 : gp.2 = ps := congrArg Prod.snd hmem'.symm
      rw [List.filterMap_cons]
      simp only [hgp2, hlen, if_pos]
      rw [List.count_cons_self]
      have hzero : (List.count (dupFileViolation ps) (rest.filterMap (fun gp =>
          if 1 < gp.2.length then some (dupFileViolation gp.2) else none))) = 0 := by
        rw [List.count_eq_zero]
        intro hvm
        rcases List.mem_filterMap.mp hvm with ⟨gq, hgq, hsome⟩
        by_cases hq : 1 < gq.2.length
        · simp only [hq, if_pos, Option.some.injEq] at hsome
          have hqne : gq.2 ≠ [] := by
            intro h0
            rw [h0] at hq
            simp at hq
          have hhead : gq.2.headD "" = ps.headD "" := congrArg Violation.file hsome
          have h1 : ps.headD "" ∈ gp.2 := hgp2 ▸ headD_mem hpsne ""
          have h2 : ps.headD "" ∈ alValues rest := by
            obtain ⟨kq, vq⟩ := gq
            exact alValues_subset hgq _ (hhead ▸ headD_mem hqne "")
          exact hdisj h1 h2
        · simp [hq] at hsome
      omega
    · have hcnt := ih hn2 hmem'
      rw [List.filterMap_cons]
      by_cases hg : 1 < gp.2.length
      · simp only [hg, if_pos]
        rw [List.count_cons]
        have hgpne : gp.2 ≠ [] := by
          intro h0
          rw [h0] at hg
          simp at hg
        have hpsm : ps.headD "" ∈ alValues rest :=
          alValues_subset hmem' _ (headD_mem hpsne "")
        have hneq : ¬ (dupFileViolation ps = dupFileViolation gp.2) := by
          intro heq
          have hhead : gp.2.headD "" = ps.headD "" := congrArg Violation.file heq.symm
          exact hdisj (headD_mem hgpne "") (hhead ▸ hpsm)
        have hneq' : ¬ (dupFileViolation gp.2 = dupFileViolation ps) := fun hh => hneq hh.symm
        simp only [beq_iff_eq, hneq, hneq', if_false]
        omega
      · simp only [hg, ite_false]
        exact hcnt

/-- Every line-count violation's `file` is the path of some scanned file. -/
theorem check_line_counts_file_mem {files : List FileInfo} {v : Violation}
    (hv : v ∈ check_line_counts files) : v.file ∈ files.map FileInfo.path := by
  unfold check_line_counts at hv
  rcases List.mem_filterMap.mp hv with ⟨f, hf, hsome⟩
  by_cases h : f.threshold < f.lines
  · simp only [h, if_pos] at hsome
    cases hsome
    exact List.mem_map.mpr ⟨f, hf, rfl⟩
  · simp [h] at hsome

/-- C1: for every scanned file `f`, the line-count check emits a
`lines_exceeded` violation for `f` iff `f.lines > f.threshold` (strictly);
when emitted it is unique, with severity `P1` iff `lines > 1.5 × threshold`
(encoded exactly as `2·lines > 3·threshold`) and `P2` otherwise; when
`lines ≤ threshold` no violation mentions `f`. -/
theorem line_count_spec (files : List FileInfo) (f : FileInfo)
    (hnd : (files.map FileInfo.path).Nodup) (hf : f ∈ files) :
    (f.lines ≤ f.threshold → ∀ v ∈ check_line_counts files, v.file ≠ f.path) ∧
    (f.threshold < f.lines →
      (check_line_counts files).filter (fun v => v.file == f.path) =
        [{ type := "lines_exceeded"
           severity := if 3 * f.threshold < 2 * f.lines then "P1" else "P2"
           file := f.path
           detail := natStr f.lines ++ " lines (threshold: " ++ natStr f.threshold ++ ")" }]) := by
  induction files with
  | nil => cases hf
  | cons g gs ih =>
    simp only [List.map_cons, List.nodup_cons] at hnd
    rcases List.mem_cons.mp hf with hfg | hftl
    · subst hfg
      constructor
      · intro hle v hv
        have hg : ¬ f.threshold < f.lines := not_lt.mpr hle
        unfold check_line_counts at hv
        simp only [List.filterMap_cons, hg, if_neg, if_false] at hv
        intro hfile
        have := check_line_counts_file_mem hv
        rw [hfile] at this
        exact hnd.1 this
      · intro hgt
        unfold check_line_counts
        simp only [List.filterMap_cons, hgt, if_pos]
        rw [List.filter_cons]
        simp only [beq_self_eq_true, if_pos]
        congr 1
        rw [List.filter_eq_nil_iff]
        intro v hv
        have hmem := check_line_counts_file_mem hv
        simp only [beq_iff_eq]
        intro hfile
        rw [hfile] at hmem
        exact hnd.1 hmem
    · have hgf : g.path ≠ f.path := by
        intro h
        exact hnd.1 (h ▸ List.mem_map.mpr ⟨f, hftl, rfl⟩)
      have IH := ih hnd.2 hftl
      constructor
      · intro hle v hv
        unfold check_line_counts at hv
        rw [List.filterMap_cons] at hv
        by_cases hg : g.threshold < g.lines
        · simp only [hg, if_pos] at hv
          rcases List.mem_cons.mp hv with hvg | hvtl
          · subst hvg; exact hgf
          · exact IH.1 hle v hvtl
        · simp only [hg, if_neg, if_false] at hv
          exact IH.1 hle v hv
      · intro hgt
        unfold check_line_counts
        rw [List.filterMap_cons]
        by_cases hg : g.threshold < g.lines
        · simp only [hg, if_pos]
          rw [List.filter_cons]
          simp only [beq_iff_eq]
          rw [if_neg (by simpa using hgf)]
          exact IH.2 hgt
        · simp only [hg, if_neg, if_false]
          exact IH.2 hgt

/-- Witness for `line_count_spec` at a concrete 800-line file with
threshold 500: the violation exists and has severity `P1`. -/
theorem line_count_spec_witness :
    ((([⟨"big.js", 800, "h", 500, "c"⟩] : List FileInfo).map FileInfo.path).Nodup ∧
      (⟨"big.js", 800, "h", 500, "c"⟩ : FileInfo) ∈ ([⟨"big.js", 800, "h", 500, "c"⟩] : List FileInfo)) ∧
    ((800 ≤ 500 → ∀ v ∈ check_line_counts [⟨"big.js", 800, "h", 500, "c"⟩], v.file ≠ "big.js") ∧
     (500 < 800 →
       (check_line_counts [⟨"big.js", 800, "h", 500, "c"⟩]).filter (fun v => v.file == "big.js") =
         [{ type := "lines_exceeded"
            severity := if 3 * 500 < 2 * 800 then "P1" else "P2"
            file := "big.js"
            detail := natStr 800 ++ " lines (threshold: " ++ natStr 500 ++ ")" }])) :=
  ⟨⟨by decide, by decide⟩,
    line_count_spec [⟨"big.js", 800, "h", 500, "c"⟩] ⟨"big.js", 800, "h", 500, "c"⟩
      (by decide) (by decide)⟩

/-- A file with an empty hash never enters any duplicate group. -/
theorem hash_empty_not_grouped (files : List FileInfo)
    (hnd : (files.map FileInfo.path).Nodup) (u : FileInfo) (hu : u ∈ files)
    (hu0 : u.hash = "") : u.path ∉ alValues (hashGroups files) := by
  obtain ⟨_, hperm, _⟩ := hashFold_inv files [] (by simp [alKeys])
  rw [← hashGroups_eq_foldl] at hperm
  simp only [alValues, List.map_nil, List.flatten_nil, List.nil_append] at hperm
  intro hmem
  have : u.path ∈ (files.filter (fun w => !(w.hash == ""))).map FileInfo.path :=
    hperm.mem_iff.mp hmem
  rcases List.mem_map.mp this with ⟨w, hw, hwp⟩
  have hwf : w ∈ files := (List.mem_filter.mp hw).1
  have hwh : w.hash ≠ "" := by
    have := (List.mem_filter.mp hw).2
    simpa using this
  have : w = u := List.inj_on_of_nodup_map hnd hwf hu hwp
  exact hwh (this ▸ hu0)

/-- C4: two scanned files with the same nonempty content hash land in the
single group of that hash (keys are unique, so no file sits in two groups for
one hash value), the violation built from that group — reported against the
group's first member with the others joined into its detail — occurs exactly
once in the check's output, and a file with an empty hash never appears in
any group at all. -/
theorem duplicate_files_spec (files : List FileInfo) (f g : FileInfo)
    (hnd : (files.map FileInfo.path).Nodup) (hf : f ∈ files) (hg : g ∈ files)
    (hpne : f.path ≠ g.path) (hhash : f.hash = g.hash) (hne : f.hash ≠ "") :
    (alKeys (hashGroups files)).Nodup ∧
    (∀ u ∈ files, u.hash = "" → u.path ∉ alValues (hashGroups files)) ∧
    ∃ ps, (f.hash, ps) ∈ hashGroups files ∧ f.path ∈ ps ∧ g.path ∈ ps ∧
      (∀ qs, (f.hash, qs) ∈ hashGroups files → qs = ps) ∧
      (check_duplicate_files files).count (dupFileViolation ps) = 1 := by
  obtain ⟨hkeys, hperm, hin⟩ :=
    hashFold_inv files [] (by simp [alKeys])
  rw [← hashGroups_eq_foldl] at hkeys hperm hin
  simp only [alValues, List.map_nil, List.flatten_nil, List.nil_append] at hperm
  have hrhs : ((files.filter (fun u => !(u.hash == ""))).map FileInfo.path).Nodup :=
    hnd.sublist ((List.filter_sublist files).map FileInfo.path)
  have hvnd : (alValues (hashGroups files)).Nodup := hperm.nodup_iff.mpr hrhs
  refine ⟨hkeys, fun u hu hu0 => hash_empty_not_grouped files hnd u hu hu0, ?_⟩
  · obtain ⟨psf, hmf, hpf⟩ := hin f hf hne
    have hgne : g.hash ≠ "" := hhash ▸ hne
    obtain ⟨psg, hmg, hpg⟩ := hin g hg hgne
    rw [← hhash] at hmg
    have hpseq : psf = psg := alKeyUnique hkeys hmf hmg
    have hgmem : g.path ∈ psf := hpseq ▸ hpg
    have hlen : 1 < psf.length := two_mem_one_lt_length hpf hgmem hpne
    exact ⟨psf, hmf, hpf, hgmem, fun qs hqs => alKeyUnique hkeys hqs hmf,
      dup_count_one (hashGroups files) hvnd hmf hlen⟩

/-- Witness for `duplicate_files_spec` at two byte-identical files with
hash `h1`. -/
theorem duplicate_files_spec_witness :
    ((([⟨"a.js", 1, "h1", 500, "x"⟩, ⟨"b.js", 1, "h1", 500, "x"⟩] : List FileInfo).map
        FileInfo.path).Nodup ∧
      (⟨"a.js", 1, "h1", 500, "x"⟩ : FileInfo) ∈
        ([⟨"a.js", 1, "h1", 500, "x"⟩, ⟨"b.js", 1, "h1", 500, "x"⟩] : List FileInfo) ∧
      (⟨"b.js", 1, "h1", 500, "x"⟩ : FileInfo) ∈
        ([⟨"a.js", 1, "h1", 500, "x"⟩, ⟨"b.js", 1, "h1", 500, "x"⟩] : List FileInfo) ∧
      ("a.js" : String) ≠ "b.js" ∧ ("h1" : String) = "h1" ∧ ("h1" : String) ≠ "") ∧
    ((alKeys (hashGroups [⟨"a.js", 1, "h1", 500, "x"⟩, ⟨"b.js", 1, "h1", 500, "x"⟩])).Nodup ∧
     (∀ u ∈ ([⟨"a.js", 1, "h1", 500, "x"⟩, ⟨"b.js", 1, "h1", 500, "x"⟩] : List FileInfo),
        u.hash = "" →
        u.path ∉ alValues (hashGroups [⟨"a.js", 1, "h1", 500, "x"⟩, ⟨"b.js", 1, "h1", 500, "x"⟩])) ∧
     ∃ ps, (("h1" : String), ps) ∈
         hashGroups [⟨"a.js", 1, "h1", 500, "x"⟩, ⟨"b.js", 1, "h1", 500, "x"⟩] ∧
       ("a.js" : String) ∈ ps ∧ ("b.js" : String) ∈ ps ∧
       (∀ qs, (("h1" : String), qs) ∈
           hashGroups [⟨"a.js", 1, "h1", 500, "x"⟩, ⟨"b.js", 1, "h1", 500, "x"⟩] → qs = ps) ∧
       (check_duplicate_files
           [⟨"a.js", 1, "h1", 500, "x"⟩, ⟨"b.js", 1, "h1", 500, "x"⟩]).count
         (dupFileViolation ps) = 1) :=
  ⟨⟨by decide, by decide, by decide, by decide, rfl, by decide⟩,
    duplicate_files_spec
      [⟨"a.js", 1, "h1", 500, "x"⟩, ⟨"b.js", 1, "h1", 500, "x"⟩]
      ⟨"a.js", 1, "h1", 500, "x"⟩ ⟨"b.js", 1, "h1", 500, "x"⟩
      (by decide) (by decide) (by decide) (by decide) rfl (by decide)⟩

/-- The digest stand-in always renders 16 hex digits, so it is never empty
(as with `sha256(...).hexdigest()[:16]` in the source). -/
theorem sha256hex16_ne (s : String) : sha256hex16 s ≠ "" := by
  have hlen : (sha256hex16 s).data.length = 16 := by simp [sha256hex16]
  intro h
  rw [h] at hlen
  simp at hlen

/-- C5 (amended): the scan always records every kept file, in tree order;
when the text read fails (permission or decode error) the record has
`lines = 0`; the hash is `""` exactly when the byte-level read fails, while a
byte-readable but undecodable file keeps a nonempty digest of its bytes (and
therefore still takes part in duplicate grouping); a file whose byte read
failed never enters any duplicate group. -/
theorem scanner_error_spec (tree : List Entry) (e : Entry)
    (he : e ∈ tree) (hkept : keptFile e = true) :
    ((scan_files tree).map FileInfo.path = (tree.filter keptFile).map Entry.path) ∧
    (e.textOk = false ∨ e.bytesOk = false →
      scanRecord e ∈ scan_files tree ∧ (scanRecord e).lines = 0) ∧
    (e.bytesOk = false → (scanRecord e).hash = "") ∧
    (e.bytesOk = true →
      (scanRecord e).hash = sha256hex16 e.content ∧ (scanRecord e).hash ≠ "") ∧
    (e.bytesOk = false → (tree.map Entry.path).Nodup →
      ∀ gp ∈ hashGroups (scan_files tree), e.path ∉ gp.2) := by
  have hpaths : (scan_files tree).map FileInfo.path = (tree.filter keptFile).map Entry.path := by
    unfold scan_files
    rw [List.map_map]
    exact List.map_congr_left (fun u _ => rfl)
  refine ⟨hpaths, ?_, ?_, ?_, ?_⟩
  · intro hfail
    constructor
    · unfold scan_files
      exact List.mem_map.mpr ⟨e, List.mem_filter.mpr ⟨he, hkept⟩, rfl⟩
    · have : read_content e = "" := by
        unfold read_content
        rcases hfail with h | h <;> simp [h]
      simp [scanRecord, this]
      rfl
  · intro hb
    simp [scanRecord, hash_file, hb]
  · intro hb
    refine ⟨by simp [scanRecord, hash_file, hb], ?_⟩
    simp only [scanRecord, hash_file, hb, if_true]
    exact sha256hex16_ne e.content
  · intro hb hnd gp hgp hin
    have hsnd : ((scan_files tree).map FileInfo.path).Nodup := by
      rw [hpaths]
      exact hnd.sublist ((List.filter_sublist tree).map Entry.path)
    have hrm : scanRecord e ∈ scan_files tree :=
      List.mem_map.mpr ⟨e, List.mem_filter.mpr ⟨he, hkept⟩, rfl⟩
    have hrh : (scanRecord e).hash = "" := by simp [scanRecord, hash_file, hb]
    have hnot := hash_empty_not_grouped (scan_files tree) hsnd (scanRecord e) hrm hrh
    obtain ⟨k, vs⟩ := gp
    exact hnot (alValues_subset hgp _ hin)

/-- Witness for `scanner_error_spec`: a permission-failed file in a two-file
tree is recorded with zero lines and empty hash and enters no group. -/
theorem scanner_error_spec_witness :
    ((⟨"locked.js", false, false, "w"⟩ : Entry) ∈
        ([⟨"locked.js", false, false, "w"⟩, ⟨"ok.js", true, true, "y"⟩] : List Entry) ∧
      keptFile ⟨"locked.js", false, false, "w"⟩ = true) ∧
    (((scan_files [⟨"locked.js", false, false, "w"⟩, ⟨"ok.js", true, true, "y"⟩]).map
        FileInfo.path =
        (([⟨"locked.js", false, false, "w"⟩, ⟨"ok.js", true, true, "y"⟩] : List Entry).filter
          keptFile).map Entry.path) ∧
     ((false : Bool) = false ∨ (false : Bool) = false →
       scanRecord ⟨"locked.js", false, false, "w"⟩ ∈
         scan_files [⟨"locked.js", false, false, "w"⟩, ⟨"ok.js", true, true, "y"⟩] ∧
       (scanRecord ⟨"locked.js", false, false, "w"⟩).lines = 0) ∧
     ((false : Bool) = false → (scanRecord ⟨"locked.js", false, false, "w"⟩).hash = "") ∧
     ((false : Bool) = true →
       (scanRecord ⟨"locked.js", false, false, "w"⟩).hash = sha256hex16 "w" ∧
       (scanRecord ⟨"locked.js", false, false, "w"⟩).hash ≠ "") ∧
     ((false : Bool) = false →
       (([⟨"locked.js", false, false, "w"⟩, ⟨"ok.js", true, true, "y"⟩] : List Entry).map
         Entry.path).Nodup →
       ∀ gp ∈ hashGroups
           (scan_files [⟨"locked.js", false, false, "w"⟩, ⟨"ok.js", true, true, "y"⟩]),
         "locked.js" ∉ gp.2)) :=
  ⟨⟨by decide, by decide⟩,
    scanner_error_spec [⟨"locked.js", false, false, "w"⟩, ⟨"ok.js", true, true, "y"⟩]
      ⟨"locked.js", false, false, "w"⟩ (by decide) (by decide)⟩

/-- Counterexample for C5 as stated: two byte-identical files that are
readable as bytes but fail text decoding are recorded with `lines = 0` but a
nonempty hash, and they do take part in hash-collision checking — the
duplicate-file check reports them, where the claim says such files are
excluded and carry an empty hash. -/
theorem scanner_text_fail_counterexample :
    scan_files [⟨"badA.js", true, false, "x"⟩, ⟨"badB.js", true, false, "x"⟩] =
      [⟨"badA.js", 0, sha256hex16 "x", 500, ""⟩, ⟨"badB.js", 0, sha256hex16 "x", 500, ""⟩] ∧
    sha256hex16 "x" ≠ "" ∧
    check_duplicate_files
        (scan_files [⟨"badA.js", true, false, "x"⟩, ⟨"badB.js", true, false, "x"⟩]) =
      [⟨"duplicate_file", "P2", "badA.js", "Identical to: badB.js"⟩] :=
  ⟨rfl, sha256hex16_ne "x", by decide⟩

/-! ## Regex machinery

Each CPython regex of the source is compiled by hand into a deterministic
matcher on character lists.  A matcher tries to recognise the pattern at the
head of its input and returns captures plus the count of consumed characters
(always at least one here).  `reScan` replays `re.finditer`: try every
position left to right, emit non-overlapping matches, resume after each
match; the previous character is threaded through for look-behind
(`\b`, `(?<!...)`) patterns. -/

/-- Advance `n` characters, keeping track of the last character passed. -/
def advance : Option Char → List Char → Nat → Option Char × List Char
  | prev, l, 0 => (prev, l)
  | prev, [], _ + 1 => (prev, [])
  | _, c :: cs, n + 1 => advance (some c) cs n

/-- Fuel-indexed finditer loop (fuel bounds the number of positions, which a
scan never exceeds because every match consumes at least one character). -/
def reScanF {α : Type} (tryM : Option Char → List Char → Option (α × Nat)) :
    Nat → Option Char → Nat → List Char → List (Nat × α)
  | 0, _, _, _ => []
  | _ + 1, _, _, [] => []
  | fuel + 1, prev, pos, c :: rest =>
    match tryM prev (c :: rest) with
    | some (a, len) =>
        let stepped := advance prev (c :: rest) (max len 1)
        (pos, a) :: reScanF tryM fuel stepped.1 (pos + max len 1) stepped.2
    | none => reScanF tryM fuel (some c) (pos + 1) rest

/-- `re.finditer`: list of `(start position, captures)` pairs. -/
def reScan {α : Type} (tryM : Option Char → List Char → Option (α × Nat))
    (cs : List Char) : List (Nat × α) :=
  reScanF tryM cs.length none 0 cs

/-- `re.search` for boolean patterns: does the pattern match at any position?
`prev` is the character just before the search window (none at line start). -/
def reFind (tryM : Option Char → List Char → Bool) : Option Char → List Char → Bool
  | prev, [] => tryM prev []
  | prev, c :: cs => tryM prev (c :: cs) || reFind tryM (some c) cs

/-- Literal string parser: consume `pat` exactly. -/
def litP (pat : List Char) (cs : List Char) : Option (List Char) :=
  if pat.isPrefixOf cs then some (cs.drop pat.length) else none

/-- Case-insensitive literal parser (`pat` is given in lower case). -/
def ciLitP : List Char → List Char → Option (List Char)
  | [], cs => some cs
  | _ :: _, [] => none
  | p :: ps, c :: cs => if c.toLower = p then ciLitP ps cs else none

/-- Greedy `class*`: max-munch, cannot fail. -/
def starP (p : Char → Bool) (cs : List Char) : List Char := cs.dropWhile p

/-- Greedy `class+`: max-munch, at least one character. -/
def plusP (p : Char → Bool) (cs : List Char) : Option (List Char × List Char) :=
  match cs with
  | [] => none
  | c :: _ => if p c then some (cs.takeWhile p, cs.dropWhile p) else none

/-- Committed `(?:kw\s+)?`: consume the keyword plus at least one whitespace
when both are present, else nothing.  This equals the regex's backtracking
behaviour in every pattern below, because whenever the option can be taken
the skip branch dies immediately on the following mandatory literal. -/
def optKwSp (kw : List Char) (cs : List Char) : List Char :=
  match litP kw cs with
  | some r =>
      match plusP spaceChar r with
      | some (_, r') => r'
      | none => cs
  | none => cs

/-! ## checks/duplicates.py — duplicate functions -/

/-- Shared head of the function regexes:
`(?:export\s+)?(?:async\s+)?function\s+(\w+)\s*\([^)]*\)\s*\x7b`.
Returns the captured name and the input right after the opening brace.
Every quantifier here is determinate: `\w+`, `[^)]*`, `\s*` max-munch
against follower characters outside their classes. -/
def matchFuncHead (cs : List Char) : Option (String × List Char) := do
  let r1 := optKwSp "export".data cs
  let r2 := optKwSp "async".data r1
  let r3 ← litP "function".data r2
  let (_, r4) ← plusP spaceChar r3
  let (nm, r5) ← plusP wordChar r4
  let r6 := starP spaceChar r5
  let r7 ← litP ['('] r6
  let r8 := starP (fun c => c ≠ ')') r7
  let r9 ← litP [')'] r8
  let r10 := starP spaceChar r9
  let r11 ← litP [lbrace] r10
  some (String.mk nm, r11)

/-- Body part of the duplicate-function regex
`\x7b([^\x7d]+(?:\x7b[^\x7d]*\x7d[^\x7d]*)*)\x7d` after the opening brace.
The leading `[^\x7d]+` is greedy and stops right before the first closing
brace, at which point zero iterations of the inner group followed by the
final literal always succeed, so CPython commits to: capture everything up
to the first closing brace (at least one character), then consume it.  In
particular a brace-empty body never matches, and a nested body is truncated
at its first closing brace (verified against CPython `re`). -/
def matchDupFunc (cs : List Char) : Option ((String × String) × Nat) := do
  let (nm, r) ← matchFuncHead cs
  let (body, r2) ← plusP (fun c => c ≠ rbrace) r
  let r3 ← litP [rbrace] r2
  some ((nm, String.mk body), cs.length - r3.length)

/-- All `(name, raw body)` pairs the duplicate-function regex finds. -/
def extractDupFuncs (content : String) : List (String × String) :=
  (reScan (fun _ cs => matchDupFunc cs) content.data).map Prod.snd

theorem dropWhile_length_le {α : Type} (p : α → Bool) (l : List α) :
    (l.dropWhile p).length ≤ l.length := by
  induction l with
  | nil => simp
  | cons a t ih =>
    by_cases h : p a
    · simp only [List.dropWhile_cons, h, if_true]
      exact Nat.le_succ_of_le ih
    · simp [List.dropWhile_cons, h]

/-- Python `re.sub(r'\s+', ' ', ...)` helper: the flag records whether the
previous character belonged to a whitespace run already replaced. -/
def collapseWsAux : Bool → List Char → List Char
  | _, [] => []
  | inRun, c :: cs =>
      if spaceChar c then
        if inRun then collapseWsAux true cs else ' ' :: collapseWsAux true cs
      else c :: collapseWsAux false cs

/-- Python `re.sub(r'\s+', ' ', ...)`: collapse whitespace runs to one space. -/
def collapseWs (l : List Char) : List Char := collapseWsAux false l

/-- `re.sub(r'\s+', ' ', body.strip())`. -/
def normalizeWs (s : String) : String := String.mk (collapseWs (stripWs s.data))

/-- Grouping key `f"{name}:{normalized[:200]}"`. -/
def dupFuncKey (nm body : String) : String :=
  nm ++ ":" ++ String.mk ((normalizeWs body).data.take 200)

/-- Whether a file participates in the script-level checks
(`f.path.suffix in {'.js', '.ts'}`). -/
def scriptFile (f : FileInfo) : Bool :=
  pathSuffix f.path = ".js" || pathSuffix f.path = ".ts"

/-- One file's contribution to the `func_bodies` grouping. -/
def dupFuncStep (acc : List (String × List (String × String))) (f : FileInfo) :
    List (String × List (String × String)) :=
  if scriptFile f then
    (extractDupFuncs f.content).foldl
      (fun acc2 nb => alAppend acc2 (dupFuncKey nb.1 nb.2) (nb.1, f.path)) acc
  else acc

/-- The violation built for one duplicate-function group. -/
def dupFuncViolation (occs : List (String × String)) : Violation :=
  { type := "duplicate_function"
    severity := "P2"
    file := (occs.map Prod.snd).headD ""
    detail := "Function '" ++ (occs.headD ("", "")).1 ++ "' duplicated in: " ++
      String.intercalate ", " ((occs.map Prod.snd).drop 1) }

/-- `check_duplicate_functions`. -/
def check_duplicate_functions (files : List FileInfo) : List Violation :=
  let func_bodies := files.foldl dupFuncStep []
  func_bodies.filterMap (fun gp =>
    if 1 < gp.2.length then some (dupFuncViolation gp.2) else none)

theorem intercalate_singleton (x : String) : String.intercalate ", " [x] = x := by
  simp [String.intercalate, String.intercalate.go]

/-- Files with no function matches (or outside the `.js`/`.ts` set)
contribute nothing to the duplicate-function grouping. -/
theorem dupFold_quiet (l : List FileInfo) (acc : List (String × List (String × String)))
    (h : ∀ f ∈ l, scriptFile f = false ∨ extractDupFuncs f.content = []) :
    l.foldl dupFuncStep acc = acc := by
  induction l generalizing acc with
  | nil => rfl
  | cons f rest ih =>
    have hstep : dupFuncStep acc f = acc := by
      rcases h f (List.mem_cons_self f rest) with hs | he
      · simp [dupFuncStep, hs]
      · unfold dupFuncStep
        by_cases hsf : scriptFile f
        · simp [hsf, he]
        · simp [hsf]
    rw [List.foldl_cons, hstep]
    exact ih acc (fun u hu => h u (List.mem_cons_of_mem f hu))

theorem plusP_fst {p : Char → Bool} {l : List Char} {pr : List Char × List Char}
    (h : plusP p l = some pr) : pr.1 = l.takeWhile p := by
  cases l with
  | nil => cases h
  | cons c cs =>
    have he : plusP p (c :: cs) =
        if p c then some ((c :: cs).takeWhile p, (c :: cs).dropWhile p) else none := rfl
    rw [he] at h
    by_cases hc : p c
    · rw [if_pos hc] at h
      cases h
      rfl
    · rw [if_neg hc] at h
      cases h

/-- A name captured by the shared function-head regex consists of `\w`
characters only (it is the capture of `(\w+)`). -/
theorem matchFuncHead_name {cs : List Char} {nm : String} {r : List Char}
    (h : matchFuncHead cs = some (nm, r)) : ∀ c ∈ nm.data, wordChar c = true := by
  unfold matchFuncHead at h
  simp only [bind, Option.bind_eq_some] at h
  obtain ⟨r3, _, h⟩ := h
  obtain ⟨p4, hp4, h⟩ := h
  obtain ⟨p5, hp5, h⟩ := h
  obtain ⟨r7, _, h⟩ := h
  obtain ⟨r9, _, h⟩ := h
  obtain ⟨r11, _, h⟩ := h
  cases h
  intro c hc
  have hfst := plusP_fst hp5
  rw [hfst] at hc
  exact List.mem_takeWhile_imp hc

theorem matchDupFunc_name {cs : List Char} {nb : String × String} {k : Nat}
    (h : matchDupFunc cs = some (nb, k)) : ∀ c ∈ nb.1.data, wordChar c = true := by
  unfold matchDupFunc at h
  simp only [bind, Option.bind_eq_some] at h
  obtain ⟨⟨nm, r⟩, hh, h⟩ := h
  obtain ⟨p2, _, h⟩ := h
  obtain ⟨r3, _, h⟩ := h
  cases h
  exact matchFuncHead_name hh

/-- Any property of the captures a try-function guarantees holds of every
capture a scan produces. -/
theorem reScanF_prop {α : Type} {P : α → Prop}
    (tryM : Option Char → List Char → Option (α × Nat))
    (hP : ∀ prev cs a len, tryM prev cs = some (a, len) → P a) :
    ∀ (fuel : Nat) (prev : Option Char) (pos : Nat) (cs : List Char),
      ∀ x ∈ reScanF tryM fuel prev pos cs, P x.2 := by
  intro fuel
  induction fuel with
  | zero => intro prev pos cs x hx; cases hx
  | succ m ih =>
    intro prev pos cs x hx
    cases cs with
    | nil => cases hx
    | cons c rest =>
      rw [reScanF] at hx
      cases htry : tryM prev (c :: rest) with
      | none =>
        rw [htry] at hx
        exact ih _ _ _ x hx
      | some al =>
        rw [htry] at hx
        rcases List.mem_cons.mp hx with he | ht
        · subst he
          exact hP prev (c :: rest) al.1 al.2 (by rw [htry])
        · exact ih _ _ _ x ht

/-- Every function name the duplicate-function extraction returns consists
of `\w` characters only. -/
theorem extractDupFuncs_name {content : String} {nb : String × String}
    (h : nb ∈ extractDupFuncs content) : ∀ c ∈ nb.1.data, wordChar c = true := by
  unfold extractDupFuncs reScan at h
  rcases List.mem_map.mp h with ⟨x, hx, hxe⟩
  have hp := reScanF_prop (fun _ cs => matchDupFunc cs)
    (fun prev cs a len ha => matchDupFunc_name (k := len) ha) content.data.length none 0
    content.data x hx
  rw [← hxe]
  exact hp

theorem wordChar_ne_squote {c : Char} (h : wordChar c = true) : (c != squote) = true := by
  by_contra hne
  have hcs : c = squote := by simpa using hne
  subst hcs
  have hw : wordChar squote = false := by decide
  rw [hw] at h
  cases h

theorem takeWhile_stop (p : Char → Bool) (n r : List Char) {c : Char} (hc : p c = false)
    (hn : ∀ d ∈ n, p d = true) : (n ++ c :: r).takeWhile p = n := by
  induction n with
  | nil => simp [List.takeWhile_cons, hc]
  | cons a t ih =>
    have ha := hn a (List.mem_cons_self a t)
    rw [List.cons_append, List.takeWhile_cons]
    simp only [ha, if_true]
    rw [ih (fun d hd => hn d (List.mem_cons_of_mem a hd))]

/-- Two squote-free character lists followed by the same squote-headed
separator and arbitrary tails are equal as soon as the concatenations are:
cutting both sides at the first squote recovers the lists. -/
theorem name_cancel {n1 n2 t1 t2 m : List Char} {c : Char} (hc : (c != squote) = false)
    (h1 : ∀ d ∈ n1, (d != squote) = true) (h2 : ∀ d ∈ n2, (d != squote) = true)
    (hd : n1 ++ ((c :: m) ++ t1) = n2 ++ ((c :: m) ++ t2)) : n1 = n2 := by
  have htw := congrArg (List.takeWhile (fun d => d != squote)) hd
  rw [List.cons_append, takeWhile_stop (fun d => d != squote) _ _ hc h1,
      List.cons_append, takeWhile_stop (fun d => d != squote) _ _ hc h2] at htw
  exact htw

/-- The name embedded in a duplicate-function detail string is recoverable:
names are `\w+` captures, so the first squote after the fixed prefix
delimits them. -/
theorem detail_name_eq {n1 n2 t1 t2 : String}
    (h1 : ∀ c ∈ n1.data, wordChar c = true) (h2 : ∀ c ∈ n2.data, wordChar c = true)
    (heq : "Function '" ++ n1 ++ "' duplicated in: " ++ t1 =
           "Function '" ++ n2 ++ "' duplicated in: " ++ t2) : n1 = n2 := by
  have hd := congrArg String.data heq
  simp only [String.data_append, List.append_assoc] at hd
  have hd2 := List.append_cancel_left hd
  exact String.ext (name_cancel (by decide)
    (fun c hc => wordChar_ne_squote (h1 c hc))
    (fun c hc => wordChar_ne_squote (h2 c hc)) hd2)

/-- Equal duplicate-function violations built from nonempty occurrence lists
with regex-captured names have equal head occurrences: the `file` field pins
the head path and the detail string pins the head name. -/
theorem dupFuncViolation_head_eq {ps qs : List (String × String)}
    (hp : ps ≠ []) (hq : qs ≠ [])
    (hwp : ∀ c ∈ (ps.headD ("", "")).1.data, wordChar c = true)
    (hwq : ∀ c ∈ (qs.headD ("", "")).1.data, wordChar c = true)
    (h : dupFuncViolation ps = dupFuncViolation qs) :
    ps.headD ("", "") = qs.headD ("", "") := by
  cases ps with
  | nil => exact absurd rfl hp
  | cons x ps' =>
    cases qs with
    | nil => exact absurd rfl hq
    | cons y qs' =>
      have hfile : x.2 = y.2 := by
        have hf := congrArg Violation.file h
        simpa [dupFuncViolation] using hf
      have hdet := congrArg Violation.detail h
      simp only [dupFuncViolation, List.headD_cons, List.map_cons, List.drop_succ_cons,
        List.drop_zero] at hdet
      have hname : x.1 = y.1 := by
        refine detail_name_eq ?_ ?_ hdet
        · simpa using hwp
        · simpa using hwq
      simp only [List.headD_cons]
      exact Prod.ext hname hfile

/-- One grouping insertion of a prepared `(key, value)` pair
(`defaultdict(list)[k].append(v)` with the pair precomputed). -/
def kvStep {α : Type} (acc : List (String × List α)) (kv : String × α) :
    List (String × List α) :=
  alAppend acc kv.1 kv.2

theorem kvStep_keys_nodup {α : Type} (acc : List (String × List α)) (kv : String × α)
    (hk : (alKeys acc).Nodup) : (alKeys (kvStep acc kv)).Nodup := by
  unfold kvStep
  rw [alKeys_alAppend]
  by_cases hm : kv.1 ∈ alKeys acc
  · simpa [hm] using hk
  · simp only [hm, ite_false]
    rw [List.nodup_append]
    exact ⟨hk, List.nodup_singleton _, by simpa using hm⟩

theorem kvFold_keys_nodup {α : Type} (kvs : List (String × α))
    (acc : List (String × List α)) (hk : (alKeys acc).Nodup) :
    (alKeys (kvs.foldl kvStep acc)).Nodup := by
  induction kvs generalizing acc with
  | nil => exact hk
  | cons kv rest ih =>
    rw [List.foldl_cons]
    exact ih _ (kvStep_keys_nodup acc kv hk)

/-- The flattened group members of a grouping fold are a permutation of the
inserted values. -/
theorem kvFold_values {α : Type} (kvs : List (String × α)) (acc : List (String × List α)) :
    (alValues (kvs.foldl kvStep acc)).Perm (alValues acc ++ kvs.map Prod.snd) := by
  induction kvs generalizing acc with
  | nil => simp
  | cons kv rest ih =>
    rw [List.foldl_cons, List.map_cons]
    refine (ih (kvStep acc kv)).trans ?_
    have hv : (alValues (kvStep acc kv)).Perm (kv.2 :: alValues acc) :=
      alValues_alAppend acc kv.1 kv.2
    refine (hv.append_right (rest.map Prod.snd)).trans ?_
    show ((kv.2 :: alValues acc) ++ rest.map Prod.snd).Perm
      (alValues acc ++ kv.2 :: rest.map Prod.snd)
    rw [List.cons_append]
    exact List.perm_middle.symm

theorem kvFold_mono {α : Type} (kvs : List (String × α)) (acc : List (String × List α))
    (hk : (alKeys acc).Nodup) (k : String) (ps : List α) (h : (k, ps) ∈ acc) :
    ∃ ps', (k, ps') ∈ kvs.foldl kvStep acc ∧ ps.Subset ps' := by
  induction kvs generalizing acc ps with
  | nil => exact ⟨ps, h, List.Subset.refl ps⟩
  | cons kv rest ih =>
    rw [List.foldl_cons]
    obtain ⟨ps₁, hmem₁, hsub₁⟩ := alAppend_mem_mono hk h kv.1 kv.2
    obtain ⟨ps₂, hmem₂, hsub₂⟩ :=
      ih (kvStep acc kv) (kvStep_keys_nodup acc kv hk) ps₁ hmem₁
    exact ⟨ps₂, hmem₂, fun x hx => hsub₂ (hsub₁ hx)⟩

/-- Every inserted value lands in its key's group. -/
theorem kvFold_mem {α : Type} (kvs : List (String × α)) (acc : List (String × List α))
    (hk : (alKeys acc).Nodup) :
    ∀ kv ∈ kvs, ∃ ps, (kv.1, ps) ∈ kvs.foldl kvStep acc ∧ kv.2 ∈ ps := by
  induction kvs generalizing acc with
  | nil => intro kv h; cases h
  | cons kv0 rest ih =>
    intro kv hkv
    rw [List.foldl_cons]
    rcases List.mem_cons.mp hkv with he | ht
    · subst he
      obtain ⟨ps, hmem, hv, _⟩ := alAppend_mem_self acc kv.1 kv.2 hk
      obtain ⟨ps', hmem', hsub⟩ :=
        kvFold_mono rest (kvStep acc kv) (kvStep_keys_nodup acc kv hk) kv.1 ps hmem
      exact ⟨ps', hmem', hsub hv⟩
    · exact ih (kvStep acc kv0) (kvStep_keys_nodup acc kv0 hk) kv ht

/-- The `(grouping key, tagged occurrence)` pairs one file feeds the
duplicate-function fold. -/
def fileKVs (f : FileInfo) : List (String × (String × String)) :=
  if scriptFile f then
    (extractDupFuncs f.content).map (fun nb => (dupFuncKey nb.1 nb.2, (nb.1, f.path)))
  else []

/-- The occurrence pairs one file contributes, without their keys. -/
def fileTagged (f : FileInfo) : List (String × String) :=
  if scriptFile f then (extractDupFuncs f.content).map (fun nb => (nb.1, f.path)) else []

theorem dupFuncStep_eq (acc : List (String × List (String × String))) (f : FileInfo) :
    dupFuncStep acc f = (fileKVs f).foldl kvStep acc := by
  unfold dupFuncStep fileKVs
  by_cases hs : scriptFile f
  · simp only [hs, if_true]
    rw [List.foldl_map]
    rfl
  · simp [hs]

/-- The duplicate-function grouping fold is the generic grouping fold over
the flattened per-file key/value pairs. -/
theorem dupFold_eq (files : List FileInfo) (acc : List (String × List (String × String))) :
    files.foldl dupFuncStep acc = (files.flatMap fileKVs).foldl kvStep acc := by
  induction files generalizing acc with
  | nil => rfl
  | cons f rest ih =>
    rw [List.foldl_cons, List.flatMap_cons, List.foldl_append, dupFuncStep_eq]
    exact ih _

theorem fileKVs_snd (f : FileInfo) : (fileKVs f).map Prod.snd = fileTagged f := by
  unfold fileKVs fileTagged
  by_cases hs : scriptFile f
  · simp [hs, List.map_map]
  · simp [hs]

theorem fileTagged_snd {f : FileInfo} {pr : String × String} (h : pr ∈ fileTagged f) :
    pr.2 = f.path := by
  unfold fileTagged at h
  by_cases hs : scriptFile f
  · rw [if_pos hs] at h
    rcases List.mem_map.mp h with ⟨nb, _, he⟩
    rw [← he]
  · rw [if_neg hs] at h
    cases h

theorem fileTagged_nodup {f : FileInfo}
    (hn : ((extractDupFuncs f.content).map Prod.fst).Nodup) : (fileTagged f).Nodup := by
  unfold fileTagged
  by_cases hs : scriptFile f
  · rw [if_pos hs]
    have he : (extractDupFuncs f.content).map (fun nb => (nb.1, f.path)) =
        ((extractDupFuncs f.content).map Prod.fst).map (fun m => (m, f.path)) := by
      rw [List.map_map]
      rfl
    rw [he]
    have hinj : Function.Injective (fun m : String => (m, f.path)) :=
      fun a b hab => congrArg Prod.fst hab
    exact hn.map hinj
  · simp [hs]

/-- With distinct file paths and per-file distinct extracted names, no
tagged occurrence is inserted twice. -/
theorem dupTagged_nodup (files : List FileInfo)
    (hnd : (files.map FileInfo.path).Nodup)
    (hnames : ∀ f ∈ files, ((extractDupFuncs f.content).map Prod.fst).Nodup) :
    (files.flatMap fileTagged).Nodup := by
  induction files with
  | nil => simp
  | cons f rest ih =>
    rw [List.flatMap_cons, List.nodup_append]
    simp only [List.map_cons, List.nodup_cons] at hnd
    refine ⟨fileTagged_nodup (hnames f (List.mem_cons_self f rest)),
      ih hnd.2 (fun g hg => hnames g (List.mem_cons_of_mem f hg)), ?_⟩
    intro pr hpr hpr2
    rcases List.mem_flatMap.mp hpr2 with ⟨g, hg, hprg⟩
    have hfg : f.path = g.path := (fileTagged_snd hpr).symm.trans (fileTagged_snd hprg)
    apply hnd.1
    rw [hfg]
    exact List.mem_map.mpr ⟨g, hg, rfl⟩

theorem dupKVs_snd (files : List FileInfo) :
    (files.flatMap fileKVs).map Prod.snd = files.flatMap fileTagged := by
  rw [List.map_flatMap]
  simp only [fileKVs_snd]

/-- Each duplicate-function group of two or more occurrences yields its
violation exactly once, provided no occurrence pair sits in two groups and
all stored names are regex word captures. -/
theorem dupFunc_count_one (groups : List (String × List (String × String)))
    (hvnd : (alValues groups).Nodup)
    (hword : ∀ pr ∈ alValues groups, ∀ c ∈ pr.1.data, wordChar c = true)
    {K : String} {ps : List (String × String)}
    (hmem : (K, ps) ∈ groups) (hlen : 1 < ps.length) :
    ((groups.filterMap (fun gp =>
        if 1 < gp.2.length then some (dupFuncViolation gp.2) else none)).count
      (dupFuncViolation ps)) = 1 := by
  induction groups with
  | nil => cases hmem
  | cons gp rest ih =>
    have hnda : (alValues (gp :: rest)) = gp.2 ++ alValues rest := by
      simp [alValues]
    rw [hnda, List.nodup_append] at hvnd
    obtain ⟨hn1, hn2, hdisj⟩ := hvnd
    have hwa : ∀ pr ∈ gp.2 ++ alValues rest, ∀ c ∈ pr.1.data, wordChar c = true := by
      rw [← hnda]
      exact hword
    have hpsne : ps ≠ [] := by
      intro h0
      rw [h0] at hlen
      simp at hlen
    rcases List.mem_cons.mp hmem with hmem' | hmem'
    · have hgp2 : gp.2 = ps := congrArg Prod.snd hmem'.symm
      rw [List.filterMap_cons]
      simp only [hgp2, hlen, if_pos]
      rw [List.count_cons_self]
      have hzero : (List.count (dupFuncViolation ps) (rest.filterMap (fun gp =>
          if 1 < gp.2.length then some (dupFuncViolation gp.2) else none))) = 0 := by
        rw [List.count_eq_zero]
        intro hvm
        rcases List.mem_filterMap.mp hvm with ⟨gq, hgq, hsome⟩
        by_cases hq : 1 < gq.2.length
        · simp only [hq, if_pos, Option.some.injEq] at hsome
          have hqne : gq.2 ≠ [] := by
            intro h0
            rw [h0] at hq
            simp at hq
          have hhd : gq.2.headD ("", "") = ps.headD ("", "") := by
            refine dupFuncViolation_head_eq hqne hpsne ?_ ?_ hsome
            · exact hwa _ (List.mem_append_right _
                (alValues_subset hgq _ (headD_mem hqne ("", ""))))
            · exact hwa _ (List.mem_append_left _ (hgp2 ▸ headD_mem hpsne ("", "")))
          have hmm1 : ps.headD ("", "") ∈ gp.2 := hgp2 ▸ headD_mem hpsne ("", "")
          have hmm2 : ps.headD ("", "") ∈ alValues rest := by
            have hsb := alValues_subset hgq _ (headD_mem hqne ("", ""))
            rwa [hhd] at hsb
          exact hdisj hmm1 hmm2
        · simp [hq] at hsome
      omega
    · have hcnt := ih hn2 (fun pr hpr => hwa pr (List.mem_append_right _ hpr)) hmem'
      rw [List.filterMap_cons]
      by_cases hg : 1 < gp.2.length
      · simp only [hg, if_pos]
        rw [List.count_cons]
        have hgpne : gp.2 ≠ [] := by
          intro h0
          rw [h0] at hg
          simp at hg
        have hpsm : ps.headD ("", "") ∈ alValues rest :=
          alValues_subset hmem' _ (headD_mem hpsne ("", ""))
        have hneq : ¬ (dupFuncViolation ps = dupFuncViolation gp.2) := by
          intro heq
          have hhd : ps.headD ("", "") = gp.2.headD ("", "") := by
            refine dupFuncViolation_head_eq hpsne hgpne ?_ ?_ heq
            · exact hwa _ (List.mem_append_right _ hpsm)
            · exact hwa _ (List.mem_append_left _ (headD_mem hgpne ("", "")))
          exact hdisj (headD_mem hgpne ("", "")) (hhd ▸ hpsm)
        have hneq2 : ¬ (dupFuncViolation gp.2 = dupFuncViolation ps) := fun hh => hneq hh.symm
        simp only [beq_iff_eq, hneq, hneq2, if_false]
        omega
      · simp only [hg, ite_false]
        exact hcnt

/-- C7 (amended): in any scanned tree with distinct file paths in which each
file declares each function name at most once, for every two script files
each containing a same-named function whose extracted bodies share the
grouping key — in particular any two whose bodies are equal up to
whitespace, and more generally any two whose whitespace-normalised bodies
agree on the first 200 characters — the grouping has unique keys, both
occurrences land in the single group of their key, and that group's
violation occurs exactly once in the output.  Extraction is the bounded
regex of the source: it truncates a body at its first closing brace and
requires at least one body character, so a brace-empty function contributes
no match (see the counterexample to the claim as stated). -/
theorem duplicate_functions_spec (files : List FileInfo) (f1 f2 : FileInfo)
    (n b1 b2 : String)
    (hnd : (files.map FileInfo.path).Nodup)
    (hnames : ∀ f ∈ files, ((extractDupFuncs f.content).map Prod.fst).Nodup)
    (h1 : f1 ∈ files) (h2 : f2 ∈ files) (hne : f1.path ≠ f2.path)
    (hs1 : scriptFile f1 = true) (hs2 : scriptFile f2 = true)
    (he1 : (n, b1) ∈ extractDupFuncs f1.content)
    (he2 : (n, b2) ∈ extractDupFuncs f2.content)
    (hkey : dupFuncKey n b2 = dupFuncKey n b1) :
    (alKeys (files.foldl dupFuncStep [])).Nodup ∧
    ∃ occs, (dupFuncKey n b1, occs) ∈ files.foldl dupFuncStep [] ∧
      (n, f1.path) ∈ occs ∧ (n, f2.path) ∈ occs ∧
      (∀ qs, (dupFuncKey n b1, qs) ∈ files.foldl dupFuncStep [] → qs = occs) ∧
      1 < occs.length ∧
      (check_duplicate_functions files).count (dupFuncViolation occs) = 1 := by
  have hfold := dupFold_eq files []
  have hkeys : (alKeys (files.foldl dupFuncStep [])).Nodup := by
    rw [hfold]
    exact kvFold_keys_nodup _ [] (by simp [alKeys])
  have hperm : (alValues (files.foldl dupFuncStep [])).Perm
      (files.flatMap fileTagged) := by
    rw [hfold]
    have hv := kvFold_values (files.flatMap fileKVs) []
    rw [dupKVs_snd] at hv
    simpa [alValues] using hv
  have hvnd : (alValues (files.foldl dupFuncStep [])).Nodup :=
    hperm.nodup_iff.mpr (dupTagged_nodup files hnd hnames)
  have hword : ∀ pr ∈ alValues (files.foldl dupFuncStep []),
      ∀ c ∈ pr.1.data, wordChar c = true := by
    intro pr hpr
    have hpr2 : pr ∈ files.flatMap fileTagged := hperm.mem_iff.mp hpr
    rcases List.mem_flatMap.mp hpr2 with ⟨g, hg, hprg⟩
    unfold fileTagged at hprg
    by_cases hs : scriptFile g
    · rw [if_pos hs] at hprg
      rcases List.mem_map.mp hprg with ⟨nb, hnb, hee⟩
      intro c hc
      have hp1 : pr.1 = nb.1 := by rw [← hee]
      rw [hp1] at hc
      exact extractDupFuncs_name hnb c hc
    · rw [if_neg hs] at hprg
      cases hprg
  have hkv1 : (dupFuncKey n b1, (n, f1.path)) ∈ files.flatMap fileKVs := by
    refine List.mem_flatMap.mpr ⟨f1, h1, ?_⟩
    unfold fileKVs
    rw [if_pos hs1]
    exact List.mem_map.mpr ⟨(n, b1), he1, rfl⟩
  have hkv2 : (dupFuncKey n b2, (n, f2.path)) ∈ files.flatMap fileKVs := by
    refine List.mem_flatMap.mpr ⟨f2, h2, ?_⟩
    unfold fileKVs
    rw [if_pos hs2]
    exact List.mem_map.mpr ⟨(n, b2), he2, rfl⟩
  obtain ⟨ps1, hm1, hin1⟩ := kvFold_mem _ [] (by simp [alKeys]) _ hkv1
  obtain ⟨ps2, hm2, hin2⟩ := kvFold_mem _ [] (by simp [alKeys]) _ hkv2
  rw [← hfold] at hm1 hm2
  rw [hkey] at hm2
  have hps : ps2 = ps1 := alKeyUnique hkeys hm2 hm1
  have hin2' : (n, f2.path) ∈ ps1 := hps ▸ hin2
  have hlen : 1 < ps1.length :=
    two_mem_one_lt_length hin1 hin2' (fun he => hne (congrArg Prod.snd he))
  refine ⟨hkeys, ps1, hm1, hin1, hin2',
    fun qs hqs => alKeyUnique hkeys hqs hm1, hlen, ?_⟩
  show ((files.foldl dupFuncStep []).filterMap (fun gp =>
      if 1 < gp.2.length then some (dupFuncViolation gp.2) else none)).count
    (dupFuncViolation ps1) = 1
  exact dupFunc_count_one _ hvnd hword hm1 hlen

/-- Witness for `duplicate_functions_spec`: two files each with one function
of the same name, the bodies differing only in whitespace. -/
theorem duplicate_functions_spec_witness :
    (((([⟨"a.js", 1, "h1", 500, "function f(a) \x7b return a + 1; \x7d"⟩,
         ⟨"b.js", 1, "h2", 500, "function f(a) \x7b  return a   + 1; \x7d"⟩] :
          List FileInfo)).map FileInfo.path).Nodup ∧
      (∀ f ∈ ([⟨"a.js", 1, "h1", 500, "function f(a) \x7b return a + 1; \x7d"⟩,
         ⟨"b.js", 1, "h2", 500, "function f(a) \x7b  return a   + 1; \x7d"⟩] :
          List FileInfo), ((extractDupFuncs f.content).map Prod.fst).Nodup) ∧
      ("f", " return a + 1; ") ∈
        extractDupFuncs "function f(a) \x7b return a + 1; \x7d" ∧
      ("f", "  return a   + 1; ") ∈
        extractDupFuncs "function f(a) \x7b  return a   + 1; \x7d" ∧
      dupFuncKey "f" "  return a   + 1; " = dupFuncKey "f" " return a + 1; ") ∧
    ((alKeys (([⟨"a.js", 1, "h1", 500, "function f(a) \x7b return a + 1; \x7d"⟩,
        ⟨"b.js", 1, "h2", 500, "function f(a) \x7b  return a   + 1; \x7d"⟩] :
         List FileInfo).foldl dupFuncStep [])).Nodup ∧
     ∃ occs, (dupFuncKey "f" " return a + 1; ", occs) ∈
        ([⟨"a.js", 1, "h1", 500, "function f(a) \x7b return a + 1; \x7d"⟩,
          ⟨"b.js", 1, "h2", 500, "function f(a) \x7b  return a   + 1; \x7d"⟩] :
           List FileInfo).foldl dupFuncStep [] ∧
      ("f", "a.js") ∈ occs ∧ ("f", "b.js") ∈ occs ∧
      (∀ qs, (dupFuncKey "f" " return a + 1; ", qs) ∈
        ([⟨"a.js", 1, "h1", 500, "function f(a) \x7b return a + 1; \x7d"⟩,
          ⟨"b.js", 1, "h2", 500, "function f(a) \x7b  return a   + 1; \x7d"⟩] :
           List FileInfo).foldl dupFuncStep [] → qs = occs) ∧
      1 < occs.length ∧
      (check_duplicate_functions
        [⟨"a.js", 1, "h1", 500, "function f(a) \x7b return a + 1; \x7d"⟩,
         ⟨"b.js", 1, "h2", 500, "function f(a) \x7b  return a   + 1; \x7d"⟩]).count
        (dupFuncViolation occs) = 1) :=
  ⟨⟨(by decide), (by decide), (by decide), (by decide), (by decide)⟩,
    duplicate_functions_spec
      [⟨"a.js", 1, "h1", 500, "function f(a) \x7b return a + 1; \x7d"⟩,
       ⟨"b.js", 1, "h2", 500, "function f(a) \x7b  return a   + 1; \x7d"⟩]
      ⟨"a.js", 1, "h1", 500, "function f(a) \x7b return a + 1; \x7d"⟩
      ⟨"b.js", 1, "h2", 500, "function f(a) \x7b  return a   + 1; \x7d"⟩
      "f" " return a + 1; " "  return a   + 1; "
      (by decide) (by decide) (by decide) (by decide) (by decide)
      (by decide) (by decide) (by decide) (by decide) (by decide)⟩

/-- Counterexample for C7 as stated: two script files each holding the same
named function with a brace-empty body (bodies identical up to whitespace)
produce no violation at all — the bounded regex requires at least one body
character, and in general truncates at the first closing brace rather than
depth-matching nested braces. -/
theorem duplicate_functions_empty_body_counterexample :
    check_duplicate_functions
      [⟨"a.js", 1, "h1", 500, "function f() \x7b\x7d"⟩,
       ⟨"b.js", 1, "h2", 500, "function f() \x7b\x7d"⟩] = [] := by decide

/-! ## checks/empty_catch.py -/

/-- Shared head of both catch regexes: `catch\s*\([^)]*\)\s*\x7b`. -/
def matchCatchHead (cs : List Char) : Option (List Char) := do
  let r1 ← litP "catch".data cs
  let r2 := starP spaceChar r1
  let r3 ← litP ['('] r2
  let r4 := starP (fun c => c ≠ ')') r3
  let r5 ← litP [')'] r4
  let r6 := starP spaceChar r5
  litP [lbrace] r6

/-- Try the cut of `[^\n]*` at length `k`, then shorter ones: after the cut,
`\s*` max-munches and the closing brace must follow. -/
def commentTailFrom (cs : List Char) : Nat → Option (List Char)
  | 0 => litP [rbrace] (starP spaceChar cs)
  | k + 1 =>
      match litP [rbrace] (starP spaceChar (cs.drop (k + 1))) with
      | some r => some r
      | none => commentTailFrom cs k

/-- Tail `[^\n]*\s*\x7d` after a `//` comment: CPython backtracks the greedy
`[^\n]*` from the end of the line downwards until whitespace followed by a
closing brace fits. -/
def slashCommentTail (cs : List Char) : Option (List Char) :=
  commentTailFrom cs (cs.takeWhile (fun c => c ≠ '\n')).length

/-- `EMPTY_CATCH_PATTERN = catch\s*\([^)]*\)\s*\x7b\s*(?://[^\n]*)?\s*\x7d`:
returns the total match length.  When the optional comment group is taken but
its tail fails, the skip branch dies at once (the next character is `/`, not
the closing brace), matching the regex's backtracking. -/
def matchEmptyCatch (cs : List Char) : Option Nat := do
  let r ← matchCatchHead cs
  let r2 := starP spaceChar r
  match litP ['/', '/'] r2 with
  | some r3 =>
      match slashCommentTail r3 with
      | some r4 => some (cs.length - r4.length)
      | none => none
  | none => do
      let r3 ← litP [rbrace] r2
      some (cs.length - r3.length)

/-- `COMMENT_ONLY_CATCH =
catch\s*\([^)]*\)\s*\x7b\s*(?:/\*[^*]*\*/|//[^\n]*)\s*\x7d`: the block
comment alternative is tried first; `[^*]*` stops at the first star, after
which `*/` must follow literally. -/
def matchCommentCatch (cs : List Char) : Option Nat := do
  let r ← matchCatchHead cs
  let r2 := starP spaceChar r
  match (do
      let r3 ← litP ['/', '*'] r2
      let r4 := starP (fun c => c ≠ '*') r3
      let r5 ← litP ['*', '/'] r4
      let r6 := starP spaceChar r5
      litP [rbrace] r6 : Option (List Char)) with
  | some r7 => some (cs.length - r7.length)
  | none =>
      match litP ['/', '/'] r2 with
      | some r3 =>
          match slashCommentTail r3 with
          | some r4 => some (cs.length - r4.length)
          | none => none
      | none => none

/-- Python `content[:pos].count('\n') + 1`. -/
def lineOfPos (cs : List Char) (pos : Nat) : Nat :=
  ((cs.take pos).filter (fun c => c = '\n')).length + 1

/-- Second-pass step of `check_empty_catch`: append a comment-only violation
unless some accumulated violation for this file already mentions
`"line {n}"` — a plain substring test, exactly as in the source. -/
def ecCommentStep (fpath : String) (content : List Char) (acc : List Violation)
    (m : Nat × Unit) : List Violation :=
  let lineNum := lineOfPos content m.1
  let alreadyReported := acc.any (fun v =>
    v.file == fpath && strContains v.detail ("line " ++ natStr lineNum))
  if alreadyReported then acc
  else acc ++
    [{ type := "empty_catch", severity := "P2", file := fpath,
       detail := "Catch block with only comment at line " ++ natStr lineNum }]

/-- Per-file step of `check_empty_catch`: the first pass reports empty (or
`//`-only) catch bodies, the second pass comment-only bodies with the
substring duplicate guard. -/
def ecFileStep (violations : List Violation) (f : FileInfo) : List Violation :=
  if scriptFile f then
    let content := f.content.data
    let v1 := violations ++
      (reScan (fun _ cs => (matchEmptyCatch cs).map (fun n => ((), n))) content).map
        (fun m =>
          { type := "empty_catch", severity := "P2", file := f.path,
            detail := "Empty catch block at line " ++ natStr (lineOfPos content m.1) ++
              " - errors silently swallowed" })
    (reScan (fun _ cs => (matchCommentCatch cs).map (fun n => ((), n))) content).foldl
      (ecCommentStep f.path content) v1
  else violations

/-- `check_empty_catch`. -/
def check_empty_catch (files : List FileInfo) : List Violation :=
  files.foldl ecFileStep []

/-- A file holding a block-comment-only catch on line 1 and a fully empty
catch on line 11 (the braces of the source text appear as `\x7b`/`\x7d`). -/
def c6content : String :=
  "try \x7b a() \x7d catch (e) \x7b /* x */ \x7d\n\n\n\n\n\n\n\n\n\ntry \x7b b() \x7d catch (e) \x7b \x7d\n"

/-- C6 bug evidence: the comment-only catch block at line 1 is matched by the
comment-only pattern (second conjunct: in isolation it is reported), yet in
`c6content` it vanishes from the output (first conjunct) because the
already-reported test is the plain substring `"line 1" in detail`, which hits
the empty-catch violation's `"... line 11 ..."`.  The check therefore does
not report every empty-or-comment-only catch block. -/
theorem empty_catch_dedup_bug :
    check_empty_catch [⟨"f.js", 12, "h", 500, c6content⟩] =
      [{ type := "empty_catch", severity := "P2", file := "f.js",
         detail := "Empty catch block at line 11 - errors silently swallowed" }] ∧
    check_empty_catch
        [⟨"g.js", 1, "h", 500, "try \x7b a() \x7d catch (e) \x7b /* x */ \x7d"⟩] =
      [{ type := "empty_catch", severity := "P2", file := "g.js",
         detail := "Catch block with only comment at line 1" }] := by
  constructor
  · decide
  · decide

/-! ## graph.py — regex layer -/

/-- A character matched by the regex class of both quote kinds. -/
def quoteChar (c : Char) : Bool := c = squote || c = '"'

/-- One keyword of `(?:function|const|let|var|class)`; no keyword is a prefix
of another, so at most one alternative can apply at a position. -/
def kwAlt (cs : List Char) : Option (List Char) :=
  (litP "function".data cs) <|> (litP "const".data cs) <|> (litP "let".data cs) <|>
    (litP "var".data cs) <|> (litP "class".data cs)

/-- `EXPORT_NAMED = export\s+(?:async\s+)?(?:function|const|let|var|class)\s+(\w+)`. -/
def matchExportNamed (cs : List Char) : Option (String × Nat) := do
  let r1 ← litP "export".data cs
  let (_, r2) ← plusP spaceChar r1
  let r3 := optKwSp "async".data r2
  let r4 ← kwAlt r3
  let (_, r5) ← plusP spaceChar r4
  let (nm, r6) ← plusP wordChar r5
  some (String.mk nm, cs.length - r6.length)

/-- `EXPORT_DEFAULT = export\s+default\s+(?:function\s+)?(\w+)?`; the capture
is optional (`none` stands for Python's `None`, turned into `'default'` by
the caller).  On `export default function() ...` the keyword option dies on
its mandatory whitespace and the capture grabs the word `function`, exactly
as CPython does. -/
def matchExportDefault (cs : List Char) : Option (Option String × Nat) := do
  let r1 ← litP "export".data cs
  let (_, r2) ← plusP spaceChar r1
  let r3 ← litP "default".data r2
  let (_, r4) ← plusP spaceChar r3
  let r5 := optKwSp "function".data r4
  match plusP wordChar r5 with
  | some (nm, r6) => some (some (String.mk nm), cs.length - r6.length)
  | none => some (none, cs.length - r5.length)

/-- Quote parser `['\"]`: either quote kind. -/
def quoteP (cs : List Char) : Option (List Char) :=
  match cs with
  | c :: rest => if quoteChar c then some rest else none
  | [] => none

/-- Module-path part `['\"]([^'\"]+)['\"]` shared by the import regexes. -/
def modulePathP (cs : List Char) : Option (String × List Char) := do
  let r1 ← quoteP cs
  let (pcs, r2) ← plusP (fun c => !(quoteChar c)) r1
  let r3 ← quoteP r2
  some (String.mk pcs, r3)

/-- `IMPORT_NAMED = import\s*\x7b([^\x7d]+)\x7d\s*from\s*['\"]([^'\"]+)['\"]`. -/
def matchImportNamed (cs : List Char) : Option ((String × String) × Nat) := do
  let r1 ← litP "import".data cs
  let r2 := starP spaceChar r1
  let r3 ← litP [lbrace] r2
  let (names, r4) ← plusP (fun c => c ≠ rbrace) r3
  let r5 ← litP [rbrace] r4
  let r6 := starP spaceChar r5
  let r7 ← litP "from".data r6
  let r8 := starP spaceChar r7
  let (p, r9) ← modulePathP r8
  some ((String.mk names, p), cs.length - r9.length)

/-- `IMPORT_DEFAULT = import\s+(\w+)\s+from\s*['\"]([^'\"]+)['\"]`. -/
def matchImportDefault (cs : List Char) : Option ((String × String) × Nat) := do
  let r1 ← litP "import".data cs
  let (_, r2) ← plusP spaceChar r1
  let (nm, r3) ← plusP wordChar r2
  let (_, r4) ← plusP spaceChar r3
  let r5 ← litP "from".data r4
  let r6 := starP spaceChar r5
  let (p, r7) ← modulePathP r6
  some ((String.mk nm, p), cs.length - r7.length)

/-- `IMPORT_ALL = import\s*\*\s*as\s+(\w+)\s+from\s*['\"]([^'\"]+)['\"]`. -/
def matchImportAll (cs : List Char) : Option ((String × String) × Nat) := do
  let r1 ← litP "import".data cs
  let r2 := starP spaceChar r1
  let r3 ← litP ['*'] r2
  let r4 := starP spaceChar r3
  let r5 ← litP "as".data r4
  let (_, r6) ← plusP spaceChar r5
  let (nm, r7) ← plusP wordChar r6
  let (_, r8) ← plusP spaceChar r7
  let r9 ← litP "from".data r8
  let r10 := starP spaceChar r9
  let (p, r11) ← modulePathP r10
  some ((String.mk nm, p), cs.length - r11.length)

/-- `WINDOW_EXPOSE = window\.(\w+)\s*=\s*(\w+)`; the code uses group 2. -/
def matchWindowExpose (cs : List Char) : Option ((String × String) × Nat) := do
  let r1 ← litP "window.".data cs
  let (a, r2) ← plusP wordChar r1
  let r3 := starP spaceChar r2
  let r4 ← litP ['='] r3
  let r5 := starP spaceChar r4
  let (b, r6) ← plusP wordChar r5
  some ((String.mk a, String.mk b), cs.length - r6.length)

/-- All named-export captures of a file, in match order. -/
def fileNamedExports (content : String) : List String :=
  (reScan (fun _ cs => matchExportNamed cs) content.data).map Prod.snd

/-- All default-export captures of a file, in match order. -/
def fileDefaultExports (content : String) : List (Option String) :=
  (reScan (fun _ cs => matchExportDefault cs) content.data).map Prod.snd

/-- All named-import matches `(names blob, module path)`, in match order. -/
def fileNamedImports (content : String) : List (String × String) :=
  (reScan (fun _ cs => matchImportNamed cs) content.data).map Prod.snd

/-- All default-import matches `(name, module path)`, in match order. -/
def fileDefaultImports (content : String) : List (String × String) :=
  (reScan (fun _ cs => matchImportDefault cs) content.data).map Prod.snd

/-- All namespace-import matches `(alias, module path)`, in match order. -/
def fileStarImports (content : String) : List (String × String) :=
  (reScan (fun _ cs => matchImportAll cs) content.data).map Prod.snd

/-- All `window.X = Y` second captures, in match order. -/
def fileWindowExposes (content : String) : List String :=
  (reScan (fun _ cs => matchWindowExpose cs) content.data).map (fun m => m.2.2)

/-- The prefix of `l` before the first occurrence of the substring `pat`
(Python `l.split(pat)[0]` when `pat` occurs). -/
def takeBeforeSub : List Char → List Char → List Char
  | [], _ => []
  | c :: t, pat => if pat.isPrefixOf (c :: t) then [] else c :: takeBeforeSub t pat

/-- One comma-piece of a named-import blob: strip, drop an ` as ` alias. -/
def importNamePiece (piece : List Char) : String :=
  let p := stripWs piece
  if lcContains p " as ".data then String.mk (stripWs (takeBeforeSub p " as ".data))
  else String.mk p

/-- Names imported by one named-import statement (split on commas, strip,
drop aliases, drop empties), in source order. -/
def parseImportNames (blob : String) : List String :=
  ((splitOnChar ',' blob.data).map importNamePiece).filter (fun nm => !(nm == ""))

/-! ## graph.py — path resolution -/

/-- Path split into `/`-separated segments. -/
def splitPath (p : String) : List String := (splitOnChar '/' p.data).map String.mk

/-- Segments joined back into a path. -/
def joinPath (segs : List String) : String := String.intercalate "/" segs

/-- `Path.resolve()` on root-relative segments: `.` and empty segments vanish,
`..` pops; popping past the root means the resolved path left the analysis
tree (`relative_to(root)` would raise), reported as `none`. -/
def resolveSegs : List String → List String → Option (List String)
  | stack, [] => some stack.reverse
  | stack, seg :: rest =>
      if seg = "" || seg = "." then resolveSegs stack rest
      else if seg = ".." then
        match stack with
        | [] => none
        | _ :: t => resolveSegs t rest
      else resolveSegs (seg :: stack) rest

/-- `Path.exists()` against the tree: a file with that exact path, or a
directory implied by some deeper file. -/
def treeHasPath (tree : List Entry) (p : String) : Bool :=
  tree.any (fun e => e.path == p || strStarts e.path (p ++ "/"))

/-- `resolve_import_path`: non-relative specifiers stay opaque; relative ones
resolve against the importing file's directory, then try the literal path,
`.js`, `.ts`, `/index.js`, `/index.ts` — first existing candidate wins, and a
fully nonexistent target keeps its literal resolved path. -/
def resolve_import_path (fromFile : String) (importPath : String) (tree : List Entry) :
    String :=
  if !(strStarts importPath ".") then importPath
  else
    match resolveSegs ((splitPath fromFile).dropLast.reverse) (splitPath importPath) with
    | none => importPath
    | some segs =>
        let base := joinPath segs
        if treeHasPath tree base then base
        else
          match ([base ++ ".js", base ++ ".ts", base ++ "/index.js",
                  base ++ "/index.ts"].find? (fun c => treeHasPath tree c)) with
          | some c => c
          | none => base

/-! ## graph.py — graph construction -/

structure ExportInfo where
  name : String
  file : String
  is_default : Bool := false
deriving Repr, DecidableEq

structure ImportGraph where
  exports : List (String × List ExportInfo) := []
  imports : List (String × List (String × String)) := []
  used_exports : List (String × String) := []
  imported_by : List (String × List String) := []
deriving Repr, DecidableEq

/-- `defaultdict` read access: create the key (empty) at the end if absent. -/
def alEnsure {α : Type} (l : List (String × List α)) (k : String) :
    List (String × List α) :=
  if (l.map Prod.fst).contains k then l else l ++ [(k, [])]

/-- Value list under a key, `[]` when absent (`dict.get(k, [])`). -/
def alGetD {α : Type} (l : List (String × List α)) (k : String) : List α :=
  ((l.find? (fun p => p.1 == k)).map Prod.snd).getD []

/-- One default-export append: skipped when the name is among the named
exports (`if export_name not in named_exports`). -/
def defaultStep (rel : String) (names : List String)
    (e : List (String × List ExportInfo)) (o : Option String) :
    List (String × List ExportInfo) :=
  if names.contains (o.getD "default") then e
  else alAppend e rel ⟨o.getD "default", rel, true⟩

/-- The default-export record kept for one match, when not shadowed. -/
def defaultKeep (rel : String) (names : List String) (o : Option String) :
    Option ExportInfo :=
  if names.contains (o.getD "default") then none
  else some ⟨o.getD "default", rel, true⟩

/-- The export phase of one file: append the named exports, touch the key
(the `defaultdict` access computing `named_exports`), then append each
default export whose name is not among the named ones. -/
def fileExportsPhase (ex : List (String × List ExportInfo)) (f : FileInfo) :
    List (String × List ExportInfo) :=
  let ex2 := alEnsure ((fileNamedExports f.content).foldl
      (fun e nm => alAppend e f.path ⟨nm, f.path, false⟩) ex) f.path
  (fileDefaultExports f.content).foldl
    (defaultStep f.path ((alGetD ex2 f.path).map ExportInfo.name)) ex2

/-- The named-import pairs `(imported name, resolved target)` of one file. -/
def fileNamedPairs (tree : List Entry) (rel : String) (content : String) :
    List (String × String) :=
  (fileNamedImports content).flatMap (fun m =>
    (parseImportNames m.1).map (fun nm => (nm, resolve_import_path rel m.2 tree)))

/-- The default-import pairs `(local name, resolved target)` of one file. -/
def fileDefaultPairs (tree : List Entry) (rel : String) (content : String) :
    List (String × String) :=
  (fileDefaultImports content).map (fun m => (m.1, resolve_import_path rel m.2 tree))

/-- The resolved targets of the namespace imports of one file. -/
def fileStarResolved (tree : List Entry) (rel : String) (content : String) :
    List String :=
  (fileStarImports content).map (fun m => resolve_import_path rel m.2 tree)

/-- All `used_exports` additions one file makes: its named imports, both
entries per default import, every currently-known export of each namespace
target, and its `window.X = Y` exposures. -/
def fileUsedAdds (tree : List Entry) (ex : List (String × List ExportInfo))
    (rel : String) (content : String) : List (String × String) :=
  (fileNamedPairs tree rel content).map (fun p => (p.2, p.1)) ++
  (fileDefaultPairs tree rel content).flatMap (fun p => [(p.2, "default"), (p.2, p.1)]) ++
  (fileStarResolved tree rel content).flatMap (fun r =>
    (alGetD ex r).map (fun e => (r, e.name))) ++
  (fileWindowExposes content).map (fun nm => (rel, nm))

/-- Processing of one file by `build_import_graph`: non-script files are
skipped whole; a script file runs its export phase, then has its import
matches recorded into `imports`, `used_exports` and `imported_by`.  The
flattening into four independent updates is faithful: during the import
phase the Python loop never reads any structure it writes, and the namespace
loop reads `graph.exports`, which the import phase leaves untouched. -/
def processFile (tree : List Entry) (g : ImportGraph) (f : FileInfo) : ImportGraph :=
  if scriptFile f then
    let rel := f.path
    let ex3 := fileExportsPhase g.exports f
    let namedPairs := fileNamedPairs tree rel f.content
    let defPairs := fileDefaultPairs tree rel f.content
    let starResolved := fileStarResolved tree rel f.content
    { exports := ex3
      imports := (namedPairs ++ defPairs).foldl (fun im p => alAppend im rel p) g.imports
      used_exports := g.used_exports ++ fileUsedAdds tree ex3 rel f.content
      imported_by := (namedPairs.map Prod.snd ++ defPairs.map Prod.snd ++ starResolved).foldl
        (fun ib r => alAppend ib r rel) g.imported_by }
  else g

/-- `build_import_graph`: fold the per-file processing over the scan order. -/
def build_import_graph (files : List FileInfo) (tree : List Entry) : ImportGraph :=
  files.foldl (processFile tree) {}

/-! ## checks/dead_code.py -/

/-- Count of `\b{name}\b` matches in the content (`re.findall`); `\b` holds
when the neighbouring character is absent or not a word character. -/
def countWordOcc (content : List Char) (pat : List Char) : Nat :=
  (reScan (fun prev cs =>
    if pat.isPrefixOf cs
        && (match prev with | none => true | some c => !(wordChar c))
        && (match (cs.drop pat.length).head? with | none => true | some c => !(wordChar c))
    then some ((), pat.length) else none) content).length

/-- Python `str.isupper()` for the ASCII identifiers occurring here: at least
one letter and no lowercase letter. -/
def pyIsUpper (s : String) : Bool :=
  s.data.any Char.isAlpha && s.data.all (fun c => !c.isAlpha || c.isUpper)

/-- The ALL-CAPS-style constant test of `check_dead_code`:
`name.isupper() or (name[0].isupper() and '_' in name)`. -/
def constantLike (nm : String) : Bool :=
  pyIsUpper nm || ((nm.data.headD 'a').isUpper && nm.data.contains '_')

/-- The `for f in files: if rel(f) == file_path: ...` content lookup
(first match wins, empty string when absent). -/
def findFileContent (files : List FileInfo) (fp : String) : String :=
  ((files.find? (fun f => f.path == fp)).map FileInfo.content).getD ""

/-- The `file_imported` gate of the source: Python's `file_path in imp[1]`
is a SUBSTRING test on the resolved target, not an equality. -/
def fileImportedSubstr (g : ImportGraph) (fp : String) : Bool :=
  g.imports.any (fun kv => kv.2.any (fun imp => strContains imp.2 fp))

/-- The violation `check_dead_code` emits for one dead export. -/
def deadCodeViolation (fp nm : String) : Violation :=
  { type := "unused_export", severity := "P3", file := fp,
    detail := "Export '" ++ nm ++ "' is never imported" }

/-- `check_dead_code`. -/
def check_dead_code (files : List FileInfo) (g : ImportGraph) : List Violation :=
  g.exports.flatMap (fun kv =>
    if ENTRY_POINTS.contains kv.1 then []
    else
      let file_content := findFileContent files kv.1
      kv.2.filterMap (fun e =>
        if g.used_exports.contains (kv.1, e.name) then none
        else if constantLike e.name then none
        else if 1 < countWordOcc file_content.data e.name.data then none
        else if fileImportedSubstr g kv.1 then some (deadCodeViolation kv.1 e.name)
        else none))

/-- C3 (amended): a dead-code violation exists precisely for the declared
exports that are not used, not in an entry-point file, not constant-style,
whose name occurs at most once in the containing file's text, and whose
containing file's path occurs as a SUBSTRING of at least one resolved import
target — the source's `file_path in imp[1]` gate.  (Whenever some file truly
imports the containing file the substring test holds, but it also holds for
merely path-suffix collisions, so "imported at least once" is not the real
gate: see the counterexample.) -/
theorem dead_code_spec (files : List FileInfo) (g : ImportGraph) (v : Violation) :
    v ∈ check_dead_code files g ↔
      ∃ kv ∈ g.exports, ∃ e ∈ kv.2,
        ENTRY_POINTS.contains kv.1 = false ∧
        g.used_exports.contains (kv.1, e.name) = false ∧
        constantLike e.name = false ∧
        countWordOcc (findFileContent files kv.1).data e.name.data ≤ 1 ∧
        fileImportedSubstr g kv.1 = true ∧
        v = deadCodeViolation kv.1 e.name := by
  unfold check_dead_code
  rw [List.mem_flatMap]
  constructor
  · rintro ⟨kv, hkv, hv⟩
    by_cases hep : ENTRY_POINTS.contains kv.1
    · rw [if_pos hep] at hv
      cases hv
    · rw [if_neg hep] at hv
      rcases List.mem_filterMap.mp hv with ⟨e, he, hsome⟩
      by_cases h2 : g.used_exports.contains (kv.1, e.name)
      · rw [if_pos h2] at hsome
        cases hsome
      · rw [if_neg h2] at hsome
        by_cases h3 : constantLike e.name
        · rw [if_pos h3] at hsome
          cases hsome
        · rw [if_neg h3] at hsome
          by_cases h4 : 1 < countWordOcc (findFileContent files kv.1).data e.name.data
          · rw [if_pos h4] at hsome
            cases hsome
          · rw [if_neg h4] at hsome
            by_cases h5 : fileImportedSubstr g kv.1
            · rw [if_pos h5] at hsome
              exact ⟨kv, hkv, e, he, Bool.not_eq_true _ ▸ hep, Bool.not_eq_true _ ▸ h2,
                Bool.not_eq_true _ ▸ h3, Nat.not_lt.mp h4, h5,
                (Option.some.injEq _ _ ▸ hsome).symm⟩
            · rw [if_neg h5] at hsome
              cases hsome
  · rintro ⟨kv, hkv, e, he, h1, h2, h3, h4, h5, rfl⟩
    refine ⟨kv, hkv, ?_⟩
    rw [if_neg ((Bool.not_eq_true _) ▸ h1)]
    refine List.mem_filterMap.mpr ⟨e, he, ?_⟩
    rw [if_neg ((Bool.not_eq_true _) ▸ h2), if_neg ((Bool.not_eq_true _) ▸ h3),
      if_neg (Nat.not_lt.mpr h4), if_pos h5]

/-- Counterexample for C3 as stated: `util.js` exports `helper`, is imported
by nobody (the graph's only import edge resolves to `sub/util.js`), yet a
dead-code violation for `helper` is emitted, because `"util.js"` is a
substring of `"sub/util.js"`. -/
theorem dead_code_counterexample :
    (build_import_graph
        [⟨"a.js", 1, "h1", 500, "import \x7b z \x7d from './sub/util'"⟩,
         ⟨"util.js", 1, "h2", 500, "export function helper() \x7b y \x7d"⟩,
         ⟨"sub/util.js", 1, "h3", 500, "export function z() \x7b q \x7d"⟩]
        [⟨"a.js", true, true, "import \x7b z \x7d from './sub/util'"⟩,
         ⟨"util.js", true, true, "export function helper() \x7b y \x7d"⟩,
         ⟨"sub/util.js", true, true, "export function z() \x7b q \x7d"⟩]).imports =
      [("a.js", [("z", "sub/util.js")])] ∧
    check_dead_code
        [⟨"a.js", 1, "h1", 500, "import \x7b z \x7d from './sub/util'"⟩,
         ⟨"util.js", 1, "h2", 500, "export function helper() \x7b y \x7d"⟩,
         ⟨"sub/util.js", 1, "h3", 500, "export function z() \x7b q \x7d"⟩]
        (build_import_graph
          [⟨"a.js", 1, "h1", 500, "import \x7b z \x7d from './sub/util'"⟩,
           ⟨"util.js", 1, "h2", 500, "export function helper() \x7b y \x7d"⟩,
           ⟨"sub/util.js", 1, "h3", 500, "export function z() \x7b q \x7d"⟩]
          [⟨"a.js", true, true, "import \x7b z \x7d from './sub/util'"⟩,
           ⟨"util.js", true, true, "export function helper() \x7b y \x7d"⟩,
           ⟨"sub/util.js", true, true, "export function z() \x7b q \x7d"⟩]) =
      [deadCodeViolation "util.js" "helper"] := ⟨by decide, by decide⟩

/-- C8: no dead-code violation ever names an entry-point file, for any file
list and any graph. -/
theorem dead_code_entry_points (files : List FileInfo) (g : ImportGraph)
    (v : Violation) (hv : v ∈ check_dead_code files g) :
    ENTRY_POINTS.contains v.file = false := by
  unfold check_dead_code at hv
  rcases List.mem_flatMap.mp hv with ⟨kv, hkv, hin⟩
  by_cases hep : ENTRY_POINTS.contains kv.1
  · rw [if_pos hep] at hin
    cases hin
  · rw [if_neg hep] at hin
    rcases List.mem_filterMap.mp hin with ⟨e, _, hsome⟩
    have hfile : v.file = kv.1 := by
      by_cases h2 : g.used_exports.contains (kv.1, e.name)
      · rw [if_pos h2] at hsome
        cases hsome
      · rw [if_neg h2] at hsome
        by_cases h3 : constantLike e.name
        · rw [if_pos h3] at hsome
          cases hsome
        · rw [if_neg h3] at hsome
          by_cases h4 : 1 < countWordOcc (findFileContent files kv.1).data e.name.data
          · rw [if_pos h4] at hsome
            cases hsome
          · rw [if_neg h4] at hsome
            by_cases h5 : fileImportedSubstr g kv.1
            · rw [if_pos h5] at hsome
              cases hsome
              rfl
            · rw [if_neg h5] at hsome
              cases hsome
    rw [hfile]
    exact Bool.not_eq_true _ ▸ hep

/-- Witness for `dead_code_entry_points` at a concrete graph that does emit
a violation (for `util.js`, which is not an entry point). -/
theorem dead_code_entry_points_witness :
    deadCodeViolation "util.js" "helper" ∈
      check_dead_code [⟨"util.js", 1, "h2", 500, "export function helper() \x7b y \x7d"⟩]
        { exports := [("util.js", [⟨"helper", "util.js", false⟩])]
          imports := [("a.js", [("z", "sub/util.js")])]
          used_exports := []
          imported_by := [("sub/util.js", ["a.js"])] } ∧
    ENTRY_POINTS.contains (deadCodeViolation "util.js" "helper").file = false :=
  ⟨by decide,
    dead_code_entry_points [⟨"util.js", 1, "h2", 500, "export function helper() \x7b y \x7d"⟩]
      { exports := [("util.js", [⟨"helper", "util.js", false⟩])]
        imports := [("a.js", [("z", "sub/util.js")])]
        used_exports := []
        imported_by := [("sub/util.js", ["a.js"])] }
      (deadCodeViolation "util.js" "helper") (by decide)⟩

/-! ## Association-list access lemmas for the graph proofs -/

theorem alGetD_alAppend_self {α : Type} (l : List (String × List α)) (k : String) (v : α) :
    alGetD (alAppend l k v) k = alGetD l k ++ [v] := by
  induction l with
  | nil => simp [alAppend, alGetD]
  | cons p rest ih =>
    obtain ⟨k', vs⟩ := p
    by_cases h : k' = k
    · subst h
      have e : alAppend ((k', vs) :: rest) k' v = (k', vs ++ [v]) :: rest := by
        simp [alAppend]
      rw [e]
      simp [alGetD, List.find?_cons]
    · have e : alAppend ((k', vs) :: rest) k v = (k', vs) :: alAppend rest k v := by
        simp [alAppend, h]
      rw [e]
      simp only [alGetD, List.find?_cons]
      have hb : ((((k', vs) : String × List α).1 == k)) = false := by simpa using h
      rw [hb]
      exact ih

theorem alGetD_alAppend_other {α : Type} (l : List (String × List α)) (k k' : String)
    (v : α) (hne : k' ≠ k) : alGetD (alAppend l k v) k' = alGetD l k' := by
  induction l with
  | nil =>
    simp only [alAppend, alGetD, List.find?_cons, List.find?_nil]
    have hb : ((((k, [v]) : String × List α).1 == k')) = false := by simpa using (Ne.symm hne)
    rw [hb]
  | cons p rest ih =>
    obtain ⟨k₀, vs⟩ := p
    by_cases h : k₀ = k
    · subst h
      have e : alAppend ((k₀, vs) :: rest) k₀ v = (k₀, vs ++ [v]) :: rest := by
        simp [alAppend]
      rw [e]
      simp only [alGetD, List.find?_cons]
      have hb : ((k₀ == k')) = false := by
        simpa using fun h' => hne (h'.symm)
      simp only [hb]
    · have e : alAppend ((k₀, vs) :: rest) k v = (k₀, vs) :: alAppend rest k v := by
        simp [alAppend, h]
      rw [e]
      simp only [alGetD, List.find?_cons]
      by_cases hk0 : (k₀ == k') = true
      · rw [hk0]
      · rw [Bool.not_eq_true] at hk0
        rw [hk0]
        exact ih

theorem alGetD_alEnsure {α : Type} (l : List (String × List α)) (k k' : String) :
    alGetD (alEnsure l k) k' = alGetD l k' := by
  unfold alEnsure
  by_cases hm : (l.map Prod.fst).contains k
  · rw [if_pos hm]
  · rw [if_neg hm]
    unfold alGetD
    rw [List.find?_append]
    cases hf : l.find? (fun p => p.1 == k') with
    | some p => simp
    | none =>
      by_cases hkk : (k == k') = true
      · simp [List.find?, hkk]
      · simp [List.find?, hkk]

theorem alGetD_not_mem_keys {α : Type} (l : List (String × List α)) (k : String)
    (h : ∀ p ∈ l, p.1 ≠ k) : alGetD l k = [] := by
  unfold alGetD
  rw [List.find?_eq_none.mpr]
  · rfl
  · intro p hp
    simpa using h p hp

theorem alKeys_alAppend_bound {γ : Type} (l : List (String × List γ)) (k₀ : String)
    (v : γ) (k : String) (h : k ∈ alKeys (alAppend l k₀ v)) : k ∈ alKeys l ∨ k = k₀ := by
  rw [alKeys_alAppend] at h
  by_cases hm : k₀ ∈ alKeys l
  · rw [if_pos hm] at h
    exact Or.inl h
  · rw [if_neg hm] at h
    rcases List.mem_append.mp h with h' | h'
    · exact Or.inl h'
    · exact Or.inr (List.mem_singleton.mp h')

theorem alKeys_alEnsure_bound {γ : Type} (l : List (String × List γ)) (k₀ k : String)
    (h : k ∈ alKeys (alEnsure l k₀)) : k ∈ alKeys l ∨ k = k₀ := by
  unfold alEnsure at h
  by_cases hm : (l.map Prod.fst).contains k₀
  · rw [if_pos hm] at h
    exact Or.inl h
  · rw [if_neg hm] at h
    unfold alKeys at h
    rw [List.map_append] at h
    rcases List.mem_append.mp h with h' | h'
    · exact Or.inl h'
    · exact Or.inr (by simpa using h')

/-- Generic key bound along a fold whose steps only touch the key `rel`. -/
theorem alKeys_foldl_bound {β γ : Type} (rel : String)
    (step : List (String × List γ) → β → List (String × List γ))
    (hstep : ∀ e x k, k ∈ alKeys (step e x) → k ∈ alKeys e ∨ k = rel) :
    ∀ (xs : List β) (e : List (String × List γ)) (k : String),
      k ∈ alKeys (xs.foldl step e) → k ∈ alKeys e ∨ k = rel := by
  intro xs
  induction xs with
  | nil => exact fun e k h => Or.inl h
  | cons x rest ih =>
    intro e k h
    rcases ih (step e x) k h with h' | h'
    · exact hstep e x k h'
    · exact Or.inr h'

/-- Generic value preservation at a key no fold step touches. -/
theorem alGetD_foldl_fix {β γ : Type} (k : String)
    (step : List (String × List γ) → β → List (String × List γ))
    (hstep : ∀ e x, alGetD (step e x) k = alGetD e k) :
    ∀ (xs : List β) (e : List (String × List γ)),
      alGetD (xs.foldl step e) k = alGetD e k := by
  intro xs
  induction xs with
  | nil => exact fun e => rfl
  | cons x rest ih =>
    intro e
    rw [List.foldl_cons, ih (step e x), hstep e x]

/-- Appending values under one key accumulates them in order. -/
theorem alGetD_foldl_alAppend_self {β γ : Type} (rel : String) (m : β → γ) :
    ∀ (xs : List β) (e : List (String × List γ)),
      alGetD (xs.foldl (fun e x => alAppend e rel (m x)) e) rel =
        alGetD e rel ++ xs.map m := by
  intro xs
  induction xs with
  | nil => simp
  | cons x rest ih =>
    intro e
    rw [List.foldl_cons, ih (alAppend e rel (m x)), alGetD_alAppend_self]
    simp

/-- The default-export fold appends exactly the non-shadowed defaults. -/
theorem alGetD_foldl_defaults (rel : String) (names : List String) :
    ∀ (ds : List (Option String)) (e : List (String × List ExportInfo)),
      alGetD (ds.foldl (defaultStep rel names) e) rel =
        alGetD e rel ++ ds.filterMap (defaultKeep rel names) := by
  intro ds
  induction ds with
  | nil => simp
  | cons o rest ih =>
    intro e
    rw [List.foldl_cons, List.filterMap_cons]
    by_cases hc : names.contains (o.getD "default")
    · have h1 : defaultStep rel names e o = e := by
        unfold defaultStep
        rw [if_pos hc]
      have h2 : defaultKeep rel names o = none := by
        unfold defaultKeep
        rw [if_pos hc]
      rw [h1, h2]
      exact ih e
    · have h1 : defaultStep rel names e o =
          alAppend e rel ⟨o.getD "default", rel, true⟩ := by
        unfold defaultStep
        rw [if_neg hc]
      have h2 : defaultKeep rel names o =
          some ⟨o.getD "default", rel, true⟩ := by
        unfold defaultKeep
        rw [if_neg hc]
      rw [h1, h2, ih (alAppend e rel ⟨o.getD "default", rel, true⟩), alGetD_alAppend_self]
      simp

theorem defaultStep_keys (rel : String) (names : List String)
    (e : List (String × List ExportInfo)) (o : Option String) (k : String)
    (hk : k ∈ alKeys (defaultStep rel names e o)) : k ∈ alKeys e ∨ k = rel := by
  unfold defaultStep at hk
  by_cases hc : names.contains (o.getD "default")
  · rw [if_pos hc] at hk
    exact Or.inl hk
  · rw [if_neg hc] at hk
    exact alKeys_alAppend_bound _ _ _ _ hk

theorem defaultStep_other (rel : String) (names : List String)
    (e : List (String × List ExportInfo)) (o : Option String) (k : String)
    (hk : k ≠ rel) : alGetD (defaultStep rel names e o) k = alGetD e k := by
  unfold defaultStep
  by_cases hc : names.contains (o.getD "default")
  · rw [if_pos hc]
  · rw [if_neg hc, alGetD_alAppend_other _ _ _ _ hk]

/-- The exports a single script file contributes to the graph. -/
def fileExports (f : FileInfo) : List ExportInfo :=
  let named := (fileNamedExports f.content).map
    (fun nm => (⟨nm, f.path, false⟩ : ExportInfo))
  named ++ (fileDefaultExports f.content).filterMap
    (defaultKeep f.path (named.map ExportInfo.name))

theorem fileExportsPhase_keys (ex : List (String × List ExportInfo)) (f : FileInfo)
    (k : String) (h : k ∈ alKeys (fileExportsPhase ex f)) :
    k ∈ alKeys ex ∨ k = f.path := by
  unfold fileExportsPhase at h
  rcases alKeys_foldl_bound f.path _ (defaultStep_keys f.path _) _ _ _ h with h' | h'
  · rcases alKeys_alEnsure_bound _ _ _ h' with h'' | h''
    · rcases alKeys_foldl_bound f.path _
          (fun e nm k hk => alKeys_alAppend_bound _ _ _ _ hk) _ _ _ h'' with h3 | h3
      · exact Or.inl h3
      · exact Or.inr h3
    · exact Or.inr h''
  · exact Or.inr h'

theorem fileExportsPhase_other (ex : List (String × List ExportInfo)) (f : FileInfo)
    (k : String) (hk : k ≠ f.path) :
    alGetD (fileExportsPhase ex f) k = alGetD ex k := by
  unfold fileExportsPhase
  rw [alGetD_foldl_fix k _ (fun e o => defaultStep_other f.path _ e o k hk),
    alGetD_alEnsure]
  exact alGetD_foldl_fix k _ (fun e nm => alGetD_alAppend_other _ _ _ _ hk) _ ex

theorem fileExportsPhase_self (ex : List (String × List ExportInfo)) (f : FileInfo)
    (h0 : alGetD ex f.path = []) :
    alGetD (fileExportsPhase ex f) f.path = fileExports f := by
  unfold fileExportsPhase fileExports
  have hnamed : alGetD (alEnsure ((fileNamedExports f.content).foldl
      (fun e nm => alAppend e f.path ⟨nm, f.path, false⟩) ex) f.path) f.path =
      (fileNamedExports f.content).map (fun nm => (⟨nm, f.path, false⟩ : ExportInfo)) := by
    rw [alGetD_alEnsure, alGetD_foldl_alAppend_self, h0, List.nil_append]
  rw [alGetD_foldl_defaults, hnamed]

theorem processFile_used (tree : List Entry) (g : ImportGraph) (f : FileInfo) :
    (processFile tree g f).used_exports =
      g.used_exports ++ (if scriptFile f then
        fileUsedAdds tree (fileExportsPhase g.exports f) f.path f.content else []) := by
  by_cases h : scriptFile f <;> simp [processFile, h]

theorem processFile_exports (tree : List Entry) (g : ImportGraph) (f : FileInfo) :
    (processFile tree g f).exports =
      if scriptFile f then fileExportsPhase g.exports f else g.exports := by
  by_cases h : scriptFile f <;> simp [processFile, h]

theorem buildFold_used_mono (tree : List Entry) (l : List FileInfo) :
    ∀ (g : ImportGraph) (x : String × String), x ∈ g.used_exports →
      x ∈ (l.foldl (processFile tree) g).used_exports := by
  induction l with
  | nil => exact fun g x h => h
  | cons f rest ih =>
    intro g x h
    rw [List.foldl_cons]
    apply ih
    rw [processFile_used]
    exact List.mem_append_left _ h

theorem buildFold_keys (tree : List Entry) (l : List FileInfo) :
    ∀ (g : ImportGraph) (k : String),
      k ∈ alKeys ((l.foldl (processFile tree) g).exports) →
      k ∈ alKeys g.exports ∨ k ∈ l.map FileInfo.path := by
  induction l with
  | nil => exact fun g k h => Or.inl h
  | cons f rest ih =>
    intro g k h
    rw [List.foldl_cons] at h
    rcases ih _ k h with h' | h'
    · rw [processFile_exports] at h'
      by_cases hs : scriptFile f
      · rw [if_pos hs] at h'
        rcases fileExportsPhase_keys _ _ _ h' with h'' | h''
        · exact Or.inl h''
        · rw [List.map_cons]
          exact Or.inr (h'' ▸ List.mem_cons_self _ _)
      · rw [if_neg hs] at h'
        exact Or.inl h'
    · rw [List.map_cons]
      exact Or.inr (List.mem_cons_of_mem _ h')

theorem buildFold_exports_preserve (tree : List Entry) (l : List FileInfo) :
    ∀ (g : ImportGraph) (k : String), (∀ f ∈ l, f.path ≠ k) →
      alGetD ((l.foldl (processFile tree) g).exports) k = alGetD g.exports k := by
  induction l with
  | nil => exact fun g k _ => rfl
  | cons f rest ih =>
    intro g k hl
    rw [List.foldl_cons, ih _ k (fun u hu => hl u (List.mem_cons_of_mem _ hu)),
      processFile_exports]
    by_cases hs : scriptFile f
    · rw [if_pos hs,
        fileExportsPhase_other _ _ _ (fun hkk => hl f (List.mem_cons_self _ _) hkk.symm)]
    · rw [if_neg hs]

/-- C2 (amended): (a) every named import marks `(resolved target, name)` in
`usedExports`, in any ordering of the file list (in particular every one
resolving to an internal file, as the claim states); (b) a namespace import
of an internal file `X` marks every export `X` declares — provided `X` comes
before the importing file in the list.  With `X` after the importer the
marking is dropped, because the namespace loop reads `graph.exports` before
`X` has been processed: see the counterexample. -/
theorem import_graph_marking (files : List FileInfo) (tree : List Entry) :
    (∀ f ∈ files, scriptFile f = true →
      ∀ m ∈ fileNamedImports f.content, ∀ nm ∈ parseImportNames m.1,
        (resolve_import_path f.path m.2 tree, nm) ∈
          (build_import_graph files tree).used_exports) ∧
    ((files.map FileInfo.path).Nodup →
      ∀ pre mid post X imp, files = pre ++ X :: (mid ++ imp :: post) →
        scriptFile X = true → scriptFile imp = true →
        ∀ m ∈ fileStarImports imp.content,
          resolve_import_path imp.path m.2 tree = X.path →
          ∀ e ∈ fileExports X,
            (X.path, e.name) ∈ (build_import_graph files tree).used_exports) := by
  constructor
  · intro f hf hs m hm nm hnm
    obtain ⟨s, t, rfl⟩ := List.append_of_mem hf
    unfold build_import_graph
    rw [List.foldl_append, List.foldl_cons]
    apply buildFold_used_mono
    rw [processFile_used, if_pos hs]
    apply List.mem_append_right
    unfold fileUsedAdds
    apply List.mem_append_left
    apply List.mem_append_left
    apply List.mem_append_left
    refine List.mem_map.mpr ⟨(nm, resolve_import_path f.path m.2 tree), ?_, rfl⟩
    unfold fileNamedPairs
    exact List.mem_flatMap.mpr ⟨m, hm, List.mem_map.mpr ⟨nm, hnm, rfl⟩⟩
  · intro hnd pre mid post X imp hfiles hsX hsImp m hm hres e he
    subst hfiles
    have hnd' := hnd
    rw [List.map_append, List.map_cons, List.map_append, List.map_cons] at hnd'
    rw [List.nodup_append] at hnd'
    obtain ⟨_, hnd2, hdisj⟩ := hnd'
    rw [List.nodup_cons] at hnd2
    have hXnotpre : X.path ∉ pre.map FileInfo.path := by
      intro hmem
      exact hdisj hmem (List.mem_cons_self _ _)
    have hXrest : X.path ∉ mid.map FileInfo.path ++ imp.path :: post.map FileInfo.path :=
      hnd2.1
    have hmid : ∀ u ∈ mid, u.path ≠ X.path := by
      intro u hu he'
      exact hXrest (List.mem_append_left _ (he' ▸ List.mem_map.mpr ⟨u, hu, rfl⟩))
    have himp : imp.path ≠ X.path := by
      intro he'
      exact hXrest (List.mem_append_right _ (he' ▸ List.mem_cons_self _ _))
    unfold build_import_graph
    rw [List.foldl_append, List.foldl_cons, List.foldl_append, List.foldl_cons]
    set G0 := pre.foldl (processFile tree) ({} : ImportGraph) with hG0
    have h0 : alGetD G0.exports X.path = [] := by
      apply alGetD_not_mem_keys
      intro p hp he'
      have : p.1 ∈ alKeys G0.exports := List.mem_map.mpr ⟨p, hp, rfl⟩
      rcases buildFold_keys tree pre ({} : ImportGraph) p.1 this with h' | h'
      · simp [alKeys, ImportGraph.exports] at h'
      · exact hXnotpre (he' ▸ h')
    have hG1 : alGetD (processFile tree G0 X).exports X.path = fileExports X := by
      rw [processFile_exports, if_pos hsX, fileExportsPhase_self _ _ h0]
    set G2 := mid.foldl (processFile tree) (processFile tree G0 X) with hG2def
    have hG2 : alGetD G2.exports X.path = fileExports X := by
      rw [hG2def, buildFold_exports_preserve tree mid _ X.path hmid, hG1]
    apply buildFold_used_mono tree post
    rw [processFile_used, if_pos hsImp]
    apply List.mem_append_right
    unfold fileUsedAdds
    apply List.mem_append_left
    apply List.mem_append_right
    apply List.mem_flatMap.mpr
    refine ⟨X.path, ?_, ?_⟩
    · unfold fileStarResolved
      exact List.mem_map.mpr ⟨m, hm, hres⟩
    · rw [fileExportsPhase_other G2.exports imp X.path (Ne.symm himp), hG2]
      exact List.mem_map.mpr ⟨e, he, rfl⟩

/-- Counterexample for C2 as stated: with the namespace importer `a.js`
ordered before the exporter `b.js`, the export `helper` of `b.js` is NOT
marked used (the claim requires it for every ordering); with `b.js` first it
is, and `b.js` does declare `helper`. -/
theorem import_graph_order_counterexample :
    ("b.js", "helper") ∉
      (build_import_graph
        [⟨"a.js", 1, "ha", 500, "import * as U from './b'"⟩,
         ⟨"b.js", 1, "hb", 500, "export function helper() \x7b x \x7d"⟩]
        [⟨"a.js", true, true, "import * as U from './b'"⟩,
         ⟨"b.js", true, true, "export function helper() \x7b x \x7d"⟩]).used_exports ∧
    ("b.js", "helper") ∈
      (build_import_graph
        [⟨"b.js", 1, "hb", 500, "export function helper() \x7b x \x7d"⟩,
         ⟨"a.js", 1, "ha", 500, "import * as U from './b'"⟩]
        [⟨"a.js", true, true, "import * as U from './b'"⟩,
         ⟨"b.js", true, true, "export function helper() \x7b x \x7d"⟩]).used_exports ∧
    (build_import_graph
        [⟨"a.js", 1, "ha", 500, "import * as U from './b'"⟩,
         ⟨"b.js", 1, "hb", 500, "export function helper() \x7b x \x7d"⟩]
        [⟨"a.js", true, true, "import * as U from './b'"⟩,
         ⟨"b.js", true, true, "export function helper() \x7b x \x7d"⟩]).exports =
      [("a.js", []), ("b.js", [⟨"helper", "b.js", false⟩])] :=
  ⟨by decide, by decide, by decide⟩

/-- Witness for `import_graph_marking`: in the exporter-first ordering, the
named-import conjunct marks `(sub/util.js, z)` and the namespace conjunct
marks `(b.js, helper)`. -/
theorem import_graph_marking_witness :
    (("sub/util.js", "z") ∈
      (build_import_graph
        [⟨"a.js", 1, "h1", 500, "import \x7b z \x7d from './sub/util'"⟩,
         ⟨"sub/util.js", 1, "h3", 500, "export function z() \x7b q \x7d"⟩]
        [⟨"a.js", true, true, "import \x7b z \x7d from './sub/util'"⟩,
         ⟨"sub/util.js", true, true, "export function z() \x7b q \x7d"⟩]).used_exports) ∧
    (("b.js", "helper") ∈
      (build_import_graph
        [⟨"b.js", 1, "hb", 500, "export function helper() \x7b x \x7d"⟩,
         ⟨"a.js", 1, "ha", 500, "import * as U from './b'"⟩]
        [⟨"a.js", true, true, "import * as U from './b'"⟩,
         ⟨"b.js", true, true, "export function helper() \x7b x \x7d"⟩]).used_exports) :=
  ⟨by
    have h := (import_graph_marking
      [⟨"a.js", 1, "h1", 500, "import \x7b z \x7d from './sub/util'"⟩,
       ⟨"sub/util.js", 1, "h3", 500, "export function z() \x7b q \x7d"⟩]
      [⟨"a.js", true, true, "import \x7b z \x7d from './sub/util'"⟩,
       ⟨"sub/util.js", true, true, "export function z() \x7b q \x7d"⟩]).1
      ⟨"a.js", 1, "h1", 500, "import \x7b z \x7d from './sub/util'"⟩
      (by decide) (by decide) (" z ", "./sub/util") (by decide) "z" (by decide)
    exact h,
   by
    have h := (import_graph_marking
      [⟨"b.js", 1, "hb", 500, "export function helper() \x7b x \x7d"⟩,
       ⟨"a.js", 1, "ha", 500, "import * as U from './b'"⟩]
      [⟨"a.js", true, true, "import * as U from './b'"⟩,
       ⟨"b.js", true, true, "export function helper() \x7b x \x7d"⟩]).2
      (by decide) [] []
      [] ⟨"b.js", 1, "hb", 500, "export function helper() \x7b x \x7d"⟩
      ⟨"a.js", 1, "ha", 500, "import * as U from './b'"⟩ (by decide)
      (by decide) (by decide) ("U", "./b") (by decide) (by decide)
      ⟨"helper", "b.js", false⟩ (by decide)
    exact h⟩

/-! ## checks/complexity.py -/

/-- Header length variant of the function-declaration matcher. -/
def matchFuncHeadLen (cs : List Char) : Option (String × Nat) :=
  (matchFuncHead cs).map (fun p => (p.1, cs.length - p.2.length))

/-- Committed `(?:kw\s*)?` (star, not plus — used by the arrow pattern). -/
def optKwStar (kw : List Char) (cs : List Char) : List Char :=
  match litP kw cs with
  | some r => starP spaceChar r
  | none => cs

/-- Arrow-function header
`(?:export\s+)?const\s+(\w+)\s*=\s*(?:async\s*)?\([^)]*\)\s*=>\s*\x7b`:
returns the captured name and the header length through the opening brace. -/
def matchArrowHead (cs : List Char) : Option (String × Nat) := do
  let r1 := optKwSp "export".data cs
  let r2 ← litP "const".data r1
  let (_, r3) ← plusP spaceChar r2
  let (nm, r4) ← plusP wordChar r3
  let r5 := starP spaceChar r4
  let r6 ← litP ['='] r5
  let r7 := starP spaceChar r6
  let r8 := optKwStar "async".data r7
  let r9 ← litP ['('] r8
  let r10 := starP (fun c => c ≠ ')') r9
  let r11 ← litP [')'] r10
  let r12 := starP spaceChar r11
  let r13 ← litP ['=', '>'] r12
  let r14 := starP spaceChar r13
  let r15 ← litP [lbrace] r14
  some (String.mk nm, cs.length - r15.length)

/-- The manual brace matcher of `extract_functions`: from right after the
opening brace, count characters until depth returns to zero; `none` when the
input ends first (the affected function is skipped). -/
def braceScanAux : Nat → Nat → List Char → Option Nat
  | _, _, [] => none
  | depth, n, c :: cs =>
      let depth' := if c = lbrace then depth + 1
                    else if c = rbrace then depth - 1 else depth
      if depth' = 0 then some (n + 1) else braceScanAux depth' (n + 1) cs

/-- Functions found by one header pattern: `(name, body including both
braces, match start)`, in match order. -/
def extractWith (header : List Char → Option (String × Nat)) (cs : List Char) :
    List (String × String × Nat) :=
  (reScan (fun _ l => (header l).map (fun p => (p, p.2))) cs).filterMap (fun m =>
    match braceScanAux 1 0 (cs.drop (m.1 + m.2.2)) with
    | some bl => some (m.2.1, String.mk ((cs.drop (m.1 + m.2.2 - 1)).take (bl + 1)), m.1)
    | none => none)

/-- `extract_functions`: all function-declaration matches first, then all
arrow-function matches. -/
def extract_functions (content : String) : List (String × String × Nat) :=
  extractWith matchFuncHeadLen content.data ++ extractWith matchArrowHead content.data

/-- Count of non-overlapping matches of one decision pattern. -/
def countPat (tryM : Option Char → List Char → Option Nat) (cs : List Char) : Nat :=
  (reScan (fun prev l => (tryM prev l).map (fun n => ((), n))) cs).length

/-- Look-behind `\b` for a pattern starting with a word character. -/
def wordB (prev : Option Char) : Bool :=
  match prev with
  | none => true
  | some c => !(wordChar c)

/-- `\b{kw}\s*\(`. -/
def matchKwParen (kw : List Char) (prev : Option Char) (cs : List Char) : Option Nat :=
  if wordB prev then do
    let r1 ← litP kw cs
    let r2 := starP spaceChar r1
    let r3 ← litP ['('] r2
    some (cs.length - r3.length)
  else none

/-- `\belse\s+if\s*\(`. -/
def matchElseIf (prev : Option Char) (cs : List Char) : Option Nat :=
  if wordB prev then do
    let r1 ← litP "else".data cs
    let (_, r2) ← plusP spaceChar r1
    let r3 ← litP "if".data r2
    let r4 := starP spaceChar r3
    let r5 ← litP ['('] r4
    some (cs.length - r5.length)
  else none

/-- `\bcase\s+`. -/
def matchCase (prev : Option Char) (cs : List Char) : Option Nat :=
  if wordB prev then do
    let r1 ← litP "case".data cs
    let (_, r2) ← plusP spaceChar r1
    some (cs.length - r2.length)
  else none

/-- The ternary pattern `\?\s*[^:]+\s*:`: after a question mark, CPython's
greedy scan succeeds exactly when the first following colon exists and is not
adjacent, and the match runs through that colon. -/
def matchTernary (cs : List Char) : Option Nat :=
  match cs with
  | c :: rest =>
      if c = '?' then
        let k := (rest.takeWhile (fun d => d ≠ ':')).length
        if 1 ≤ k && k < rest.length then some (k + 2) else none
      else none
  | [] => none

/-- `calculate_complexity`: one plus the sum of all decision-pattern hits. -/
def calculate_complexity (code : String) : Nat :=
  let cs := code.data
  1 + countPat (matchKwParen "if".data) cs
    + countPat matchElseIf cs
    + countPat (matchKwParen "for".data) cs
    + countPat (matchKwParen "while".data) cs
    + countPat (matchKwParen "switch".data) cs
    + countPat matchCase cs
    + countPat (matchKwParen "catch".data) cs
    + countPat (fun _ l => matchTernary l) cs
    + countPat (fun _ l => (litP ['&', '&'] l).map (fun _ => 2)) cs
    + countPat (fun _ l => (litP ['|', '|'] l).map (fun _ => 2)) cs
    + countPat (fun _ l => (litP ['?', '?'] l).map (fun _ => 2)) cs

/-- `check_complexity`. -/
def check_complexity (files : List FileInfo) : List Violation :=
  files.flatMap (fun f =>
    if scriptFile f then
      (extract_functions f.content).filterMap (fun t =>
        let complexity := calculate_complexity t.2.1
        if COMPLEXITY_THRESHOLD < complexity then
          some { type := "high_complexity", severity := "P2", file := f.path,
                 detail := "Function '" ++ t.1 ++ "' has complexity " ++
                   natStr complexity ++ " (threshold: " ++ natStr COMPLEXITY_THRESHOLD ++
                   ") at line " ++ natStr (lineOfPos f.content.data t.2.2) }
        else none)
    else [])

/-! ## checks/nesting.py -/

/-- Backtick character, written via its code point. -/
def btick : Char := Char.ofNat 96

/-- Backslash character, written via its code point. -/
def bslash : Char := Char.ofNat 92

structure NestState where
  max_depth : Nat
  current_depth : Nat
  max_line : Nat
  current_line : Nat
  in_string : Bool
  string_char : Option Char
  prev_char : Option Char

/-- One character of `calculate_max_nesting`'s scan: newline counting, the
quote-toggling state machine with backslash escape, then brace depth
tracking outside strings (`max(0, d-1)` is Nat subtraction here). -/
def nestStep (st : NestState) (c : Char) : NestState :=
  let st := if c = '\n' then { st with current_line := st.current_line + 1 } else st
  let st :=
    if (c = '"' || c = squote || c = btick) && st.prev_char ≠ some bslash then
      if !st.in_string then { st with in_string := true, string_char := some c }
      else if some c = st.string_char then { st with in_string := false, string_char := none }
      else st
    else st
  let st :=
    if !st.in_string then
      if c = lbrace then
        let d := st.current_depth + 1
        if st.max_depth < d then
          { st with current_depth := d, max_depth := d, max_line := st.current_line }
        else { st with current_depth := d }
      else if c = rbrace then { st with current_depth := st.current_depth - 1 }
      else st
    else st
  { st with prev_char := some c }

/-- `calculate_max_nesting`: maximum brace depth and the line where it was
first reached. -/
def calculate_max_nesting (code : String) : Nat × Nat :=
  let st := code.data.foldl nestStep ⟨0, 0, 1, 1, false, none, none⟩
  (st.max_depth, st.max_line)

/-- `check_nesting`. -/
def check_nesting (files : List FileInfo) : List Violation :=
  files.flatMap (fun f =>
    if scriptFile f then
      let md := calculate_max_nesting f.content
      if NESTING_THRESHOLD < md.1 then
        [{ type := "deep_nesting", severity := "P2", file := f.path,
           detail := "Max nesting depth " ++ natStr md.1 ++ " (threshold: " ++
             natStr NESTING_THRESHOLD ++ ") near line " ++ natStr md.2 }]
      else []
    else [])

/-! ## checks/long_functions.py -/

/-- Function spans including the header (from match start through the closing
brace), as `check_long_functions` slices them. -/
def extractFull (header : List Char → Option (String × Nat)) (cs : List Char) :
    List (String × String × Nat) :=
  (reScan (fun _ l => (header l).map (fun p => (p, p.2))) cs).filterMap (fun m =>
    match braceScanAux 1 0 (cs.drop (m.1 + m.2.2)) with
    | some bl => some (m.2.1, String.mk ((cs.drop m.1).take (m.2.2 + bl)), m.1)
    | none => none)

/-- `check_long_functions`: per file, the declaration pattern's matches then
the arrow pattern's, counting non-blank lines of each span. -/
def check_long_functions (files : List FileInfo) : List Violation :=
  files.flatMap (fun f =>
    if scriptFile f then
      (extractFull matchFuncHeadLen f.content.data ++
        extractFull matchArrowHead f.content.data).filterMap (fun t =>
        let func_lines := countNonBlank t.2.1
        if FUNCTION_LENGTH_THRESHOLD < func_lines then
          some { type := "long_function", severity := "P2", file := f.path,
                 detail := "Function '" ++ t.1 ++ "' has " ++ natStr func_lines ++
                   " lines (threshold: " ++ natStr FUNCTION_LENGTH_THRESHOLD ++
                   ") at line " ++ natStr (lineOfPos f.content.data t.2.2) }
        else none)
    else [])

/-! ## checks/console_leaks.py -/

/-- Files allowed to keep console statements (substring match on the file
name). -/
def ALLOWED_FILES : List String :=
  ["log.js", "logger.js", "logging.js", "__main__.py", "report.py", "tracking.js",
   "handler.js", "renderer.js", "loader.js", "notifications.js", "leaderboard.js",
   "index.js"]

/-- Final path component (`Path.name`). -/
def pathName (p : String) : String := String.mk ((splitOnChar '/' p.data).getLastD [])

/-- `CONSOLE_PATTERN = \bconsole\.(log|debug|info|warn)\s*\(`. -/
def matchConsole (prev : Option Char) (cs : List Char) : Option (String × Nat) :=
  if wordB prev then do
    let r1 ← litP "console.".data cs
    let (meth, r2) ← (litP "log".data r1).map (fun r => ("log", r)) <|>
      (litP "debug".data r1).map (fun r => ("debug", r)) <|>
      (litP "info".data r1).map (fun r => ("info", r)) <|>
      (litP "warn".data r1).map (fun r => ("warn", r))
    let r3 := starP spaceChar r2
    let r4 ← litP ['('] r3
    some ((meth, cs.length - r4.length))
  else none

/-- `check_console_leaks`. -/
def check_console_leaks (files : List FileInfo) : List Violation :=
  files.flatMap (fun f =>
    if scriptFile f then
      if ALLOWED_FILES.any (fun a => strContains (pathName f.path) a) then []
      else if strContains (String.mk (lcLower f.path.data)) "test" then []
      else (reScan matchConsole f.content.data).map (fun m =>
        { type := "console_leak", severity := "P3", file := f.path,
          detail := "console." ++ m.2 ++ "() at line " ++
            natStr (lineOfPos f.content.data m.1) })
    else [])

/-! ## checks/commented_code.py -/

/-- Mutable state of the commented-block line scan. -/
structure CCState where
  consec : Nat
  blockStart : Nat
  inJsdoc : Bool
  out : List (Nat × Nat)

/-- One line of `check_commented_code`'s loop (`i` is the zero-based index):
skip the 25-line header, track JSDoc blocks, then extend or flush the run of
non-documentation comment lines. -/
def ccLine (st : CCState) (i : Nat) (line : List Char) : CCState :=
  if i < 25 then st
  else
    let stripped := stripWs line
    if "/**".data.isPrefixOf stripped then { st with inJsdoc := true }
    else if st.inJsdoc then
      if "*/".data.reverse.isPrefixOf stripped.reverse || stripped = "*/".data then
        { st with inJsdoc := false }
      else st
    else
      let isComment := "//".data.isPrefixOf stripped || "#".data.isPrefixOf stripped ||
        "/*".data.isPrefixOf stripped
      let isDoc := "///".data.isPrefixOf stripped || "# -".data.isPrefixOf stripped ||
        lcContains (lcLower stripped) "license".data ||
        lcContains (lcLower stripped) "copyright".data ||
        lcContains stripped "@param".data || lcContains stripped "@returns".data ||
        lcContains stripped "@type".data
      if isComment && !isDoc then
        if st.consec = 0 then { st with consec := 1, blockStart := i + 1 }
        else { st with consec := st.consec + 1 }
      else
        if COMMENTED_BLOCK_THRESHOLD ≤ st.consec then
          { st with consec := 0, out := st.out ++ [(st.consec, st.blockStart)] }
        else { st with consec := 0 }

/-- Index-threading fold over the lines. -/
def ccRun : CCState → Nat → List (List Char) → CCState
  | st, _, [] => st
  | st, i, l :: ls => ccRun (ccLine st i l) (i + 1) ls

/-- All `(length, start line)` comment blocks of one file, with the final
flush at end of file. -/
def commentBlocks (content : String) : List (Nat × Nat) :=
  let st := ccRun ⟨0, 0, false, []⟩ 0 (splitOnChar '\n' content.data)
  if COMMENTED_BLOCK_THRESHOLD ≤ st.consec then st.out ++ [(st.consec, st.blockStart)]
  else st.out

/-- Suffix set of `check_commented_code` (includes `.py`). -/
def commentedSuffix (f : FileInfo) : Bool :=
  pathSuffix f.path = ".js" || pathSuffix f.path = ".ts" || pathSuffix f.path = ".py"

/-- `check_commented_code`. -/
def check_commented_code (files : List FileInfo) : List Violation :=
  files.flatMap (fun f =>
    if commentedSuffix f then
      (commentBlocks f.content).map (fun b =>
        { type := "commented_block", severity := "P3", file := f.path,
          detail := natStr b.1 ++ " consecutive comment lines starting at line " ++
            natStr b.2 })
    else [])

/-! ## checks/todo_density.py -/

/-- One debt-marker match of
`\b(TODO|FIXME|HACK|XXX|BUG|OPTIMIZE)\b` (IGNORECASE): the markers are
pairwise non-prefix, so at most one alternative fits at a position. -/
def matchDebtMarker (prev : Option Char) (cs : List Char) : Option (String × Nat) :=
  if wordB prev then
    ["todo", "fixme", "hack", "xxx", "bug", "optimize"].firstM (fun w =>
      match ciLitP w.data cs with
      | some r =>
          if (match r with | [] => true | c :: _ => !(wordChar c)) then
            some (String.mk (cs.take w.length), w.length)
          else none
      | none => none)
  else none

/-- Python `str.upper` on the matched marker. -/
def upperStr (s : String) : String := String.mk (s.data.map Char.toUpper)

/-- Markers of one file: `(MARKER, line number, stripped line prefix)`. -/
def fileDebtMarkers (content : String) : List (String × Nat × String) :=
  ((splitOnChar '\n' content.data).enum.flatMap (fun li =>
    (reScan matchDebtMarker li.2).map (fun m =>
      (upperStr m.2, li.1 + 1, String.mk ((stripWs li.2).take 60)))))

/-- Summary text of up to five markers plus an overflow note. -/
def markerSummary (markers : List (String × Nat × String)) : String :=
  let head := String.intercalate ", "
    ((markers.take 5).map (fun m => m.1 ++ " (line " ++ natStr m.2.1 ++ ")"))
  if 5 < markers.length then
    head ++ " ... and " ++ natStr (markers.length - 5) ++ " more"
  else head

/-- `check_todo_density`: group markers per file (suffixes `.js`/`.ts`/`.py`),
then one violation per file with three or more. -/
def check_todo_density (files : List FileInfo) : List Violation :=
  let file_markers := files.foldl (fun acc f =>
    if commentedSuffix f then
      (fileDebtMarkers f.content).foldl (fun a m => alAppend a f.path m) acc
    else acc) []
  file_markers.filterMap (fun kv =>
    if 3 ≤ kv.2.length then
      some { type := "todo_density", severity := "P3", file := kv.1,
             detail := natStr kv.2.length ++ " debt markers: " ++ markerSummary kv.2 }
    else none)

/-! ## checks/coupling.py -/

/-- `_matches_exception`: suffix or substring match against the configured
names. -/
def matchesException (fp : String) (exceptions : List String) : Bool :=
  exceptions.any (fun exc => strEnds fp exc || strContains fp exc)

/-- Python `len(set(l))`. -/
def dedupLen (l : List String) : Nat := l.eraseDups.length

/-- `check_coupling`: high outgoing fan-out per importing file, then god
files by distinct importers. -/
def check_coupling (files : List FileInfo) (g : ImportGraph) : List Violation :=
  (g.imports.filterMap (fun kv =>
    if matchesException kv.1 COUPLING_EXCEPTIONS then none
    else
      let unique_sources := dedupLen
        ((kv.2.filter (fun imp => !(strStarts imp.2 "node_modules"))).map Prod.snd)
      if COUPLING_THRESHOLD < unique_sources then
        some { type := "high_coupling", severity := "P3", file := kv.1,
               detail := "Imports from " ++ natStr unique_sources ++
                 " different files (threshold: " ++ natStr COUPLING_THRESHOLD ++ ")" }
      else none)) ++
  (g.imported_by.filterMap (fun kv =>
    if matchesException kv.1 GOD_FILE_EXCEPTIONS then none
    else
      let unique_importers := dedupLen kv.2
      if GOD_FILE_THRESHOLD < unique_importers then
        some { type := "god_file", severity := "P3", file := kv.1,
               detail := "Imported by " ++ natStr unique_importers ++
                 " files (threshold: " ++ natStr GOD_FILE_THRESHOLD ++ ")" }
      else none))

/-! ## checks/legacy_markers.py

Each `LEGACY_PATTERNS` regex (all IGNORECASE) is compiled into a boolean
matcher over one line; `reFind` replays `re.search`.  `\b` at a pattern edge
uses the neighbouring character; `[_-]?` connectors are greedy with the
regex's fallback order (with the connector first, then without). -/

/-- Word-boundary after a just-matched character, before the rest. -/
def boundaryAfterChar (c : Char) (cs : List Char) : Bool :=
  match cs with
  | [] => wordChar c
  | d :: _ => wordChar c != wordChar d

/-- `\b` when the rest starts with a word character (or pattern edge). -/
def afterB (cs : List Char) : Bool :=
  match cs with
  | [] => true
  | c :: _ => !(wordChar c)

/-- Case-insensitive whole word: `\bword\b`. -/
def tryWord (w : List Char) (prev : Option Char) (cs : List Char) : Bool :=
  wordB prev &&
    (match ciLitP w cs with
     | some r => afterB r
     | none => false)

/-- Greedy `[_-]?` then a case-insensitive word continued by `k`. -/
def connWord (w : List Char) (k : List Char → Bool) (cs : List Char) : Bool :=
  let tryAt : List Char → Bool := fun l =>
    match ciLitP w l with
    | some r => k r
    | none => false
  match cs with
  | c :: rest => if c = '_' || c = '-' then (tryAt rest || tryAt cs) else tryAt cs
  | [] => false

/-- `[_-]?(alt₁|...|altₙ)\b`. -/
def connAlts (alts : List String) (cs : List Char) : Bool :=
  alts.any (fun a => connWord a.data afterB cs)

/-- `[_-]?(alt₁|...|altₙ)` without a trailing boundary. -/
def connAltsNB (alts : List String) (cs : List Char) : Bool :=
  alts.any (fun a => connWord a.data (fun _ => true) cs)

/-- `\bword\b(?![a-zA-Z])`. -/
def tryWordNoLetter (w : List Char) (prev : Option Char) (cs : List Char) : Bool :=
  wordB prev &&
    (match ciLitP w cs with
     | some r =>
        afterB r &&
          (match r with
           | [] => true
           | c :: _ => !(c.isAlpha))
     | none => false)

/-- `\bhead[_-]?\b` (the backup/unused patterns): with the optional
connector first, then without. -/
def tryHeadConn (w : List Char) (lastWord : Char) (prev : Option Char)
    (cs : List Char) : Bool :=
  wordB prev &&
    (match ciLitP w cs with
     | some r =>
        (match r with
         | c :: rest =>
            if c = '_' || c = '-' then
              boundaryAfterChar c rest || boundaryAfterChar lastWord r
            else boundaryAfterChar lastWord r
         | [] => boundaryAfterChar lastWord [])
     | none => false)

/-- `\bhead[_-]?(alts)\b` (the old-code style patterns). -/
def tryHeadAlts (w : List Char) (alts : List String) (prev : Option Char)
    (cs : List Char) : Bool :=
  wordB prev &&
    (match ciLitP w cs with
     | some r => connAlts alts r
     | none => false)

/-- `v[0-9]+[_-]?(old|legacy|deprecated)` (no boundaries). -/
def tryVersioned (_prev : Option Char) (cs : List Char) : Bool :=
  match ciLitP "v".data cs with
  | some r =>
      (match plusP Char.isDigit r with
       | some (_, r2) => connAltsNB ["old", "legacy", "deprecated"] r2
       | none => false)
  | none => false

/-- `TODO[:\s]*(urgent|asap|now|important|critical|p0|p1)` and the FIXME
variant (no boundaries). -/
def tryUrgent (kw : List Char) (_prev : Option Char) (cs : List Char) : Bool :=
  match ciLitP kw cs with
  | some r =>
      let r2 := r.dropWhile (fun c => c = ':' || spaceChar c)
      ["urgent", "asap", "now", "important", "critical", "p0", "p1"].any
        (fun a => (ciLitP a.data r2).isSome)
  | none => false

/-- `(?<![_a-zA-Z])XXX(?![_a-zA-Z0-9])`: digits may precede, but not letters
or underscores; nothing word-like may follow. -/
def tryXXX (prev : Option Char) (cs : List Char) : Bool :=
  (match prev with
   | none => true
   | some c => !(c.isAlpha || c = '_')) &&
  (match ciLitP "xxx".data cs with
   | some r =>
      (match r with
       | [] => true
       | c :: _ => !(c.isAlpha || c.isDigit || c = '_'))
   | none => false)

/-- `//\s*\b(old|legacy|deprecated|backup)\b` and the `#` variant: the
characters before the alternation are never word characters, so the inner
`\b` always holds. -/
def tryCommentLegacy (marker : List Char) (_prev : Option Char) (cs : List Char) : Bool :=
  match litP marker cs with
  | some r =>
      let r2 := starP spaceChar r
      ["old", "legacy", "deprecated", "backup"].any (fun a =>
        match ciLitP a.data r2 with
        | some r3 => afterB r3
        | none => false)
  | none => false

/-- `\b(previous|prev)[_-]?(version|impl|code)\b`: the longer alternative is
tried first, with full backtracking to the shorter one. -/
def tryPrevious (prev : Option Char) (cs : List Char) : Bool :=
  wordB prev &&
    ((match ciLitP "previous".data cs with
      | some r => connAlts ["version", "impl", "code"] r
      | none => false) ||
     (match ciLitP "prev".data cs with
      | some r => connAlts ["version", "impl", "code"] r
      | none => false))

/-- `\bcan[_-]?be[_-]?removed\b`. -/
def tryCanBeRemoved (prev : Option Char) (cs : List Char) : Bool :=
  wordB prev &&
    (match ciLitP "can".data cs with
     | some r => connWord "be".data (connWord "removed".data afterB) r
     | none => false)

/-- `\bkeep[_-]?for[_-]?reference\b`. -/
def tryKeepForReference (prev : Option Char) (cs : List Char) : Bool :=
  wordB prev &&
    (match ciLitP "keep".data cs with
     | some r => connWord "for".data (connWord "reference".data afterB) r
     | none => false)

/-- `\bjust[_-]?in[_-]?case\b`. -/
def tryJustInCase (prev : Option Char) (cs : List Char) : Bool :=
  wordB prev &&
    (match ciLitP "just".data cs with
     | some r => connWord "in".data (connWord "case".data afterB) r
     | none => false)

/-- `\bmight[_-]?need[_-]?later\b`. -/
def tryMightNeedLater (prev : Option Char) (cs : List Char) : Bool :=
  wordB prev &&
    (match ciLitP "might".data cs with
     | some r => connWord "need".data (connWord "later".data afterB) r
     | none => false)

/-- `\b(backward[_-]?compat|backwards[_-]?compat)\b`. -/
def tryBackwardCompat (prev : Option Char) (cs : List Char) : Bool :=
  wordB prev &&
    ((match ciLitP "backward".data cs with
      | some r => connWord "compat".data afterB r
      | none => false) ||
     (match ciLitP "backwards".data cs with
      | some r => connWord "compat".data afterB r
      | none => false))

/-- `\bfor[_-]?backwards?[_-]?compatibility\b` (greedy optional `s`). -/
def tryForBackwardsCompat (prev : Option Char) (cs : List Char) : Bool :=
  wordB prev &&
    (match ciLitP "for".data cs with
     | some r =>
        connWord "backward".data (fun r2 =>
          (match ciLitP "s".data r2 with
           | some r3 => connWord "compatibility".data afterB r3
           | none => false) ||
          connWord "compatibility".data afterB r2) r
     | none => false)

/-- `\b(temp|TEMP|temporary|TEMPORARY)\b(?![a-zA-Z])`: alternatives in
source order, boundary plus lookahead after each. -/
def tryTemp (prev : Option Char) (cs : List Char) : Bool :=
  tryWordNoLetter "temp".data prev cs || tryWordNoLetter "temporary".data prev cs

/-- The ordered `LEGACY_PATTERNS` list: matcher and human-readable label. -/
def LEGACY_PATTERNS : List ((Option Char → List Char → Bool) × String) :=
  [(tryWord "legacy".data, "legacy marker"),
   (tryWord "deprecated".data, "deprecated marker"),
   (tryWord "obsolete".data, "obsolete marker"),
   (tryHeadAlts "old".data ["code", "impl", "version", "api", "endpoint", "handler"],
     "old code reference"),
   (tryPrevious, "previous version reference"),
   (tryVersioned, "versioned legacy marker"),
   (tryHeadConn "backup".data 'p', "backup marker"),
   (tryHeadConn "unused".data 'd', "unused marker"),
   (tryHeadAlts "dead".data ["code"], "dead code marker"),
   (tryHeadAlts "to".data ["delete"], "to-delete marker"),
   (tryHeadAlts "remove".data ["me"], "remove-me marker"),
   (tryHeadAlts "delete".data ["this"], "delete-this marker"),
   (tryCanBeRemoved, "can-be-removed marker"),
   (tryTemp, "temporary marker"),
   (tryWord "hack".data, "hack marker"),
   (tryWord "workaround".data, "workaround marker"),
   (tryWordNoLetter "hotfix".data, "hotfix marker"),
   (tryHeadAlts "quick".data ["fix"], "quick-fix marker"),
   (tryUrgent "todo".data, "urgent TODO"),
   (tryUrgent "fixme".data, "urgent FIXME"),
   (tryXXX, "XXX marker (needs attention)"),
   (tryCommentLegacy "//".data, "commented legacy reference"),
   (tryCommentLegacy "#".data, "commented legacy reference"),
   (tryKeepForReference, "keep-for-reference marker"),
   (tryJustInCase, "just-in-case marker"),
   (tryMightNeedLater, "might-need-later marker"),
   (tryBackwardCompat, "backward compatibility marker"),
   (tryForBackwardsCompat, "backward compatibility marker")]

/-- Case-insensitive substring containment (`pat` given in lower case). -/
def ciContains (hay : List Char) (pat : List Char) : Bool :=
  lcContains (lcLower hay) pat

/-- Search for a case-insensitive literal followed (via `k`) by more
context, at any position. -/
def ciSearchThen (pat : List Char) (k : List Char → Bool) : List Char → Bool
  | [] => (match ciLitP pat [] with
           | some r => k r
           | none => false)
  | c :: cs => (match ciLitP pat (c :: cs) with
                | some r => k r
                | none => false) || ciSearchThen pat k cs

/-- `backward.?compat.+comment`. -/
def tryExcBackward (_prev : Option Char) (cs : List Char) : Bool :=
  match ciLitP "backward".data cs with
  | some r =>
      let tryCompat : List Char → Bool := fun l =>
        match ciLitP "compat".data l with
        | some r2 => ciContains (r2.drop 1) "comment".data
        | none => false
      (match r with
       | _ :: rest => tryCompat rest || tryCompat r
       | [] => false)
  | none => false

/-- `migration.+from.+legacy`. -/
def tryExcMigration (_prev : Option Char) (cs : List Char) : Bool :=
  match ciLitP "migration".data cs with
  | some r =>
      ciSearchThen "from".data (fun r2 => ciContains (r2.drop 1) "legacy".data) (r.drop 1)
  | none => false

/-- `deprecated.+since`. -/
def tryExcDeprecated (_prev : Option Char) (cs : List Char) : Bool :=
  match ciLitP "deprecated".data cs with
  | some r => ciContains (r.drop 1) "since".data
  | none => false

/-- `["\'].*xxx.*["\']`. -/
def tryExcQuotedXXX (_prev : Option Char) (cs : List Char) : Bool :=
  match cs with
  | c :: rest =>
      quoteChar c && ciSearchThen "xxx".data (fun r2 => r2.any quoteChar) rest
  | [] => false

/-- A line matching one of the `EXCEPTION_PATTERNS` is skipped whole. -/
def legacyExceptionLine (line : List Char) : Bool :=
  reFind tryExcBackward none line ||
  reFind tryExcMigration none line ||
  reFind tryExcDeprecated none line ||
  reFind tryExcQuotedXXX none line ||
  ciContains line "/path/to/".data

/-- First matching legacy pattern (one violation per line at most). -/
def firstLegacyLabel (line : List Char) : Option String :=
  (LEGACY_PATTERNS.find? (fun p => reFind p.1 none line)).map Prod.snd

/-- `_v[0-9]+\.` of the file-name patterns. -/
def tryFileVersioned (_prev : Option Char) (cs : List Char) : Bool :=
  match cs with
  | c :: rest =>
      c = '_' &&
        (match ciLitP "v".data rest with
         | some r2 =>
            (match plusP Char.isDigit r2 with
             | some (_, r3) =>
                (match r3 with
                 | '.' :: _ => true
                 | _ => false)
             | none => false)
         | none => false)
  | [] => false

/-- `LEGACY_FILE_PATTERNS` (all case-insensitive; the dots are literal). -/
def legacyFileName (p : String) : Bool :=
  ciContains p.data ".old.".data || ciContains p.data ".bak.".data ||
  ciContains p.data ".backup.".data || ciContains p.data "_old.".data ||
  ciContains p.data "_backup.".data || ciContains p.data "_legacy.".data ||
  ciContains p.data "_deprecated.".data || ciContains p.data ".orig.".data ||
  reFind tryFileVersioned none p.data || ciContains p.data ".copy.".data

/-- Context shown in a legacy violation: the stripped line truncated at 80
characters with a trailing ellipsis when longer. -/
def legacyContext (line : List Char) : String :=
  let stripped := stripWs line
  if 80 < stripped.length then String.mk (stripped.take 80) ++ "..."
  else String.mk (stripped.take 80)

/-- `check_legacy_markers`: file-name patterns first, then the per-line
content scan, re-reading each file from the tree (`open` fails only when the
byte read does; `errors='ignore'` absorbs decode errors). -/
def check_legacy_markers (files : List FileInfo) (tree : List Entry) : List Violation :=
  files.flatMap (fun fi =>
    (if legacyFileName fi.path then
      [{ type := "legacy_file", severity := "P2", file := fi.path,
         detail := "File name suggests legacy/backup code" }]
     else []) ++
    (match tree.find? (fun e => e.path == fi.path) with
     | none => []
     | some e =>
        if e.bytesOk then
          (splitOnChar '\n' e.content.data).enum.flatMap (fun li =>
            if legacyExceptionLine li.2 then []
            else
              match firstLegacyLabel li.2 with
              | some label =>
                  [{ type := "legacy_marker", severity := "P2", file := fi.path,
                     detail := "Line " ++ natStr (li.1 + 1) ++ ": " ++ label ++
                       " - " ++ legacyContext li.2 }]
              | none => [])
        else []))

/-! ## The orchestrating facade (`EntropyChecker.run_all_checks`) -/

/-- `run_all_checks`: scan, the three file-level checks, the graph build,
then the remaining ten checks, concatenated in the facade's fixed order.
The legacy check receives the tree again, modelling its re-read of each
file from disk. -/
def run_all_checks (tree : List Entry) : List Violation :=
  let files := scan_files tree
  let graph := build_import_graph files tree
  check_line_counts files ++
  check_duplicate_files files ++
  check_duplicate_functions files ++
  check_dead_code files graph ++
  check_complexity files ++
  check_nesting files ++
  check_long_functions files ++
  check_console_leaks files ++
  check_commented_code files ++
  check_todo_density files ++
  check_empty_catch files ++
  check_coupling files graph ++
  check_legacy_markers files tree

/-- C9: the pipeline output is a function of the file-tree snapshot alone —
the model threads the tree explicitly through the scan, the graph build and
the legacy re-read, and carries no other state — so two runs over an
unchanged tree produce identical violation lists, same order included. -/
theorem pipeline_deterministic (t₁ t₂ : List Entry) (h : t₁ = t₂) :
    run_all_checks t₁ = run_all_checks t₂ := by rw [h]

/-- Witness for `pipeline_deterministic` at a concrete one-file tree. -/
theorem pipeline_deterministic_witness :
    ([⟨"a.js", true, true, "export function alpha() \x7b x \x7d"⟩] : List Entry) =
      [⟨"a.js", true, true, "export function alpha() \x7b x \x7d"⟩] ∧
    run_all_checks [⟨"a.js", true, true, "export function alpha() \x7b x \x7d"⟩] =
      run_all_checks [⟨"a.js", true, true, "export function alpha() \x7b x \x7d"⟩] :=
  ⟨rfl, pipeline_deterministic _ _ rfl⟩

/-! ## C10 support: only `.js`/`.ts` files feed the graph and the
structural checks -/

theorem processFile_skip (tree : List Entry) (g : ImportGraph) (f : FileInfo)
    (h : scriptFile f = false) : processFile tree g f = g := by
  unfold processFile
  rw [h]
  rfl

theorem buildFold_filter (tree : List Entry) (l : List FileInfo) :
    ∀ g : ImportGraph, l.foldl (processFile tree) g =
      (l.filter scriptFile).foldl (processFile tree) g := by
  induction l with
  | nil => intro g; rfl
  | cons f rest ih =>
    intro g
    rw [List.foldl_cons, List.filter_cons]
    by_cases hs : scriptFile f
    · rw [if_pos hs, List.foldl_cons]
      exact ih (processFile tree g f)
    · rw [if_neg hs, processFile_skip tree g f (by simpa using hs)]
      exact ih g

theorem build_import_graph_filter (files : List FileInfo) (tree : List Entry) :
    build_import_graph files tree = build_import_graph (files.filter scriptFile) tree :=
  buildFold_filter tree files {}

theorem processFile_imports (tree : List Entry) (g : ImportGraph) (f : FileInfo) :
    (processFile tree g f).imports =
      if scriptFile f then
        ((fileNamedPairs tree f.path f.content ++ fileDefaultPairs tree f.path f.content).foldl
          (fun im p => alAppend im f.path p) g.imports)
      else g.imports := by
  by_cases h : scriptFile f <;> simp [processFile, h]

theorem buildFold_imports_keys (tree : List Entry) (l : List FileInfo) :
    ∀ (g : ImportGraph) (k : String),
      k ∈ alKeys ((l.foldl (processFile tree) g).imports) →
      k ∈ alKeys g.imports ∨ k ∈ l.map FileInfo.path := by
  induction l with
  | nil => exact fun g k h => Or.inl h
  | cons f rest ih =>
    intro g k h
    rw [List.foldl_cons] at h
    rcases ih _ k h with h' | h'
    · rw [processFile_imports] at h'
      by_cases hs : scriptFile f
      · rw [if_pos hs] at h'
        rcases alKeys_foldl_bound f.path _
            (fun e x k hk => alKeys_alAppend_bound _ _ _ _ hk) _ _ _ h' with h'' | h''
        · exact Or.inl h''
        · rw [List.map_cons]
          exact Or.inr (h'' ▸ List.mem_cons_self _ _)
      · rw [if_neg hs] at h'
        exact Or.inl h'
    · rw [List.map_cons]
      exact Or.inr (List.mem_cons_of_mem _ h')

/-- Violations of a guarded per-file `flatMap` check come from script files. -/
theorem mem_flatMap_script {files : List FileInfo} {v : Violation}
    {body : FileInfo → List Violation}
    (hbody : ∀ f w, w ∈ body f → w.file = f.path)
    (hv : v ∈ files.flatMap (fun f => if scriptFile f then body f else [])) :
    ∃ g ∈ files, scriptFile g = true ∧ v.file = g.path := by
  rcases List.mem_flatMap.mp hv with ⟨f, hf, hin⟩
  by_cases hs : scriptFile f
  · rw [if_pos hs] at hin
    exact ⟨f, hf, hs, hbody f v hin⟩
  · rw [if_neg hs] at hin
    cases hin

theorem check_complexity_file {files : List FileInfo} {v : Violation}
    (hv : v ∈ check_complexity files) :
    ∃ g ∈ files, scriptFile g = true ∧ v.file = g.path := by
  refine mem_flatMap_script ?_ hv
  intro f w hw
  rcases List.mem_filterMap.mp hw with ⟨t, _, hsome⟩
  by_cases hc : COMPLEXITY_THRESHOLD < calculate_complexity t.2.1
  · rw [if_pos hc] at hsome
    cases hsome
    rfl
  · rw [if_neg hc] at hsome
    cases hsome

theorem check_nesting_file {files : List FileInfo} {v : Violation}
    (hv : v ∈ check_nesting files) :
    ∃ g ∈ files, scriptFile g = true ∧ v.file = g.path := by
  refine mem_flatMap_script ?_ hv
  intro f w hw
  by_cases hc : NESTING_THRESHOLD < (calculate_max_nesting f.content).1
  · rw [if_pos hc] at hw
    rcases List.mem_singleton.mp hw with rfl
    rfl
  · rw [if_neg hc] at hw
    cases hw

theorem check_long_functions_file {files : List FileInfo} {v : Violation}
    (hv : v ∈ check_long_functions files) :
    ∃ g ∈ files, scriptFile g = true ∧ v.file = g.path := by
  refine mem_flatMap_script ?_ hv
  intro f w hw
  rcases List.mem_filterMap.mp hw with ⟨t, _, hsome⟩
  by_cases hc : FUNCTION_LENGTH_THRESHOLD < countNonBlank t.2.1
  · rw [if_pos hc] at hsome
    cases hsome
    rfl
  · rw [if_neg hc] at hsome
    cases hsome

theorem check_console_leaks_file {files : List FileInfo} {v : Violation}
    (hv : v ∈ check_console_leaks files) :
    ∃ g ∈ files, scriptFile g = true ∧ v.file = g.path := by
  refine mem_flatMap_script ?_ hv
  intro f w hw
  by_cases h1 : ALLOWED_FILES.any (fun a => strContains (pathName f.path) a)
  · rw [if_pos h1] at hw
    cases hw
  · rw [if_neg h1] at hw
    by_cases h2 : strContains (String.mk (lcLower f.path.data)) "test"
    · rw [if_pos h2] at hw
      cases hw
    · rw [if_neg h2] at hw
      rcases List.mem_map.mp hw with ⟨m, _, rfl⟩
      rfl

theorem dead_code_file_mem {files : List FileInfo} {g : ImportGraph} {v : Violation}
    (hv : v ∈ check_dead_code files g) : v.file ∈ alKeys g.exports := by
  unfold check_dead_code at hv
  rcases List.mem_flatMap.mp hv with ⟨kv, hkv, hin⟩
  by_cases hep : ENTRY_POINTS.contains kv.1
  · rw [if_pos hep] at hin
    cases hin
  · rw [if_neg hep] at hin
    rcases List.mem_filterMap.mp hin with ⟨e, _, hsome⟩
    have hfile : v.file = kv.1 := by
      by_cases h2 : g.used_exports.contains (kv.1, e.name)
      · rw [if_pos h2] at hsome
        cases hsome
      · rw [if_neg h2] at hsome
        by_cases h3 : constantLike e.name
        · rw [if_pos h3] at hsome
          cases hsome
        · rw [if_neg h3] at hsome
          by_cases h4 : 1 < countWordOcc (findFileContent files kv.1).data e.name.data
          · rw [if_pos h4] at hsome
            cases hsome
          · rw [if_neg h4] at hsome
            by_cases h5 : fileImportedSubstr g kv.1
            · rw [if_pos h5] at hsome
              cases hsome
              rfl
            · rw [if_neg h5] at hsome
              cases hsome
    rw [hfile]
    exact List.mem_map.mpr ⟨kv, hkv, rfl⟩

theorem alValues_alAppend_mem {α : Type} (l : List (String × List α)) (k : String)
    (v x : α) (h : x ∈ alValues (alAppend l k v)) : x ∈ alValues l ∨ x = v := by
  have := (alValues_alAppend l k v).mem_iff.mp h
  rcases List.mem_cons.mp this with h' | h'
  · exact Or.inr h'
  · exact Or.inl h'

theorem alValues_foldl_alAppend_mem {β α : Type} (key : β → String) (val : β → α) :
    ∀ (xs : List β) (acc : List (String × List α)) (x : α),
      x ∈ alValues (xs.foldl (fun a b => alAppend a (key b) (val b)) acc) →
      x ∈ alValues acc ∨ ∃ b ∈ xs, x = val b := by
  intro xs
  induction xs with
  | nil => exact fun acc x h => Or.inl h
  | cons b rest ih =>
    intro acc x h
    rw [List.foldl_cons] at h
    rcases ih _ x h with h' | h'
    · rcases alValues_alAppend_mem _ _ _ _ h' with h'' | h''
      · exact Or.inl h''
      · exact Or.inr ⟨b, List.mem_cons_self _ _, h''⟩
    · rcases h' with ⟨b', hb', hx⟩
      exact Or.inr ⟨b', List.mem_cons_of_mem _ hb', hx⟩

theorem dupFuncStep_values (acc : List (String × List (String × String)))
    (f : FileInfo) (x : String × String) (h : x ∈ alValues (dupFuncStep acc f)) :
    x ∈ alValues acc ∨ (scriptFile f = true ∧ x.2 = f.path) := by
  unfold dupFuncStep at h
  by_cases hs : scriptFile f
  · rw [if_pos hs] at h
    rcases alValues_foldl_alAppend_mem (fun (nb : String × String) => dupFuncKey nb.1 nb.2)
        (fun (nb : String × String) => (nb.1, f.path)) _ _ _ h with h' | h'
    · exact Or.inl h'
    · rcases h' with ⟨nb, _, hx⟩
      exact Or.inr ⟨hs, by rw [hx]⟩
  · rw [if_neg hs] at h
    exact Or.inl h

theorem dupFuncFold_values (l : List FileInfo) :
    ∀ (acc : List (String × List (String × String))) (x : String × String),
      x ∈ alValues (l.foldl dupFuncStep acc) →
      x ∈ alValues acc ∨ ∃ g ∈ l, scriptFile g = true ∧ x.2 = g.path := by
  induction l with
  | nil => exact fun acc x h => Or.inl h
  | cons f rest ih =>
    intro acc x h
    rw [List.foldl_cons] at h
    rcases ih _ x h with h' | h'
    · rcases dupFuncStep_values _ _ _ h' with h'' | h''
      · exact Or.inl h''
      · exact Or.inr ⟨f, List.mem_cons_self _ _, h''⟩
    · rcases h' with ⟨g, hg, hx⟩
      exact Or.inr ⟨g, List.mem_cons_of_mem _ hg, hx⟩

theorem check_duplicate_functions_file {files : List FileInfo} {v : Violation}
    (hv : v ∈ check_duplicate_functions files) :
    ∃ g ∈ files, scriptFile g = true ∧ v.file = g.path := by
  unfold check_duplicate_functions at hv
  rcases List.mem_filterMap.mp hv with ⟨gp, hgp, hsome⟩
  by_cases hlen : 1 < gp.2.length
  · rw [if_pos hlen] at hsome
    cases hsome
    have hne : gp.2 ≠ [] := by
      intro h0
      rw [h0] at hlen
      simp at hlen
    have hmemmap : (gp.2.map Prod.snd).headD "" ∈ gp.2.map Prod.snd := by
      apply headD_mem
      simpa using hne
    rcases List.mem_map.mp hmemmap with ⟨x, hx, hxeq⟩
    obtain ⟨k, vs⟩ := gp
    have hxv : x ∈ alValues (files.foldl dupFuncStep []) :=
      alValues_subset hgp _ hx
    rcases dupFuncFold_values files [] x hxv with h' | h'
    · simp [alValues] at h'
    · rcases h' with ⟨g, hg, hs, hxp⟩
      refine ⟨g, hg, hs, ?_⟩
      show (vs.map Prod.snd).headD "" = g.path
      rw [← hxeq]
      exact hxp
  · rw [if_neg hlen] at hsome
    cases hsome

theorem ecCommentStep_mem (fpath : String) (content : List Char)
    (acc : List Violation) (m : Nat × Unit) (v : Violation)
    (h : v ∈ ecCommentStep fpath content acc m) : v ∈ acc ∨ v.file = fpath := by
  unfold ecCommentStep at h
  by_cases hr : acc.any (fun w =>
      w.file == fpath && strContains w.detail ("line " ++ natStr (lineOfPos content m.1)))
  · rw [if_pos hr] at h
    exact Or.inl h
  · rw [if_neg hr] at h
    rcases List.mem_append.mp h with h' | h'
    · exact Or.inl h'
    · rcases List.mem_singleton.mp h' with rfl
      exact Or.inr rfl

theorem ecCommentFold_mem (fpath : String) (content : List Char) :
    ∀ (ms : List (Nat × Unit)) (acc : List Violation) (v : Violation),
      v ∈ ms.foldl (ecCommentStep fpath content) acc → v ∈ acc ∨ v.file = fpath := by
  intro ms
  induction ms with
  | nil => exact fun acc v h => Or.inl h
  | cons m rest ih =>
    intro acc v h
    rw [List.foldl_cons] at h
    rcases ih _ v h with h' | h'
    · exact ecCommentStep_mem fpath content acc m v h'
    · exact Or.inr h'

theorem ecFileStep_mem (acc : List Violation) (f : FileInfo) (v : Violation)
    (h : v ∈ ecFileStep acc f) :
    v ∈ acc ∨ (scriptFile f = true ∧ v.file = f.path) := by
  unfold ecFileStep at h
  by_cases hs : scriptFile f
  · rw [if_pos hs] at h
    rcases ecCommentFold_mem f.path f.content.data _ _ v h with h' | h'
    · rcases List.mem_append.mp h' with h'' | h''
      · exact Or.inl h''
      · rcases List.mem_map.mp h'' with ⟨m, _, rfl⟩
        exact Or.inr ⟨hs, rfl⟩
    · exact Or.inr ⟨hs, h'⟩
  · rw [if_neg hs] at h
    exact Or.inl h

theorem check_empty_catch_file {files : List FileInfo} {v : Violation}
    (hv : v ∈ check_empty_catch files) :
    ∃ g ∈ files, scriptFile g = true ∧ v.file = g.path := by
  unfold check_empty_catch at hv
  have aux : ∀ (l : List FileInfo) (acc : List Violation) (v : Violation),
      v ∈ l.foldl ecFileStep acc →
      v ∈ acc ∨ ∃ g ∈ l, scriptFile g = true ∧ v.file = g.path := by
    intro l
    induction l with
    | nil => exact fun acc v h => Or.inl h
    | cons f rest ih =>
      intro acc v h
      rw [List.foldl_cons] at h
      rcases ih _ v h with h' | h'
      · rcases ecFileStep_mem acc f v h' with h'' | h''
        · exact Or.inl h''
        · exact Or.inr ⟨f, List.mem_cons_self _ _, h''⟩
      · rcases h' with ⟨g, hg, hx⟩
        exact Or.inr ⟨g, List.mem_cons_of_mem _ hg, hx⟩
  rcases aux files [] v hv with h' | h'
  · cases h'
  · exact h'

/-- C10: the graph builder and the structural checks process only files with
suffix exactly `.js` or `.ts`.  The graph equals the graph of the
script-filtered file list (so a `.jsx`/`.tsx` file contributes no exports,
imports or usedExports entries of its own), the file's path never keys
`exports` or `imports`, and none of duplicate-function, dead-code,
complexity, nesting, long-function, console-leak or empty-catch violations
ever names it. -/
theorem script_only_checks (files : List FileInfo) (tree : List Entry)
    (hnd : (files.map FileInfo.path).Nodup) (f : FileInfo) (hf : f ∈ files)
    (hnf : scriptFile f = false) :
    build_import_graph files tree = build_import_graph (files.filter scriptFile) tree ∧
    f.path ∉ alKeys (build_import_graph files tree).exports ∧
    f.path ∉ alKeys (build_import_graph files tree).imports ∧
    (∀ v ∈ check_dead_code files (build_import_graph files tree), v.file ≠ f.path) ∧
    (∀ v ∈ check_duplicate_functions files, v.file ≠ f.path) ∧
    (∀ v ∈ check_complexity files, v.file ≠ f.path) ∧
    (∀ v ∈ check_nesting files, v.file ≠ f.path) ∧
    (∀ v ∈ check_long_functions files, v.file ≠ f.path) ∧
    (∀ v ∈ check_console_leaks files, v.file ≠ f.path) ∧
    (∀ v ∈ check_empty_catch files, v.file ≠ f.path) := by
  have hscript : ∀ p : String,
      (∃ g ∈ files, scriptFile g = true ∧ p = g.path) → p ≠ f.path := by
    rintro p ⟨g, hg, hs, rfl⟩ hpe
    have : g = f := List.inj_on_of_nodup_map hnd hg hf hpe
    rw [this] at hs
    rw [hnf] at hs
    cases hs
  have hkeysE : f.path ∉ alKeys (build_import_graph files tree).exports := by
    intro hmem
    unfold build_import_graph at hmem
    rcases buildFold_keys tree files {} f.path hmem with h' | h'
    · simp [alKeys, ImportGraph.exports] at h'
    · rw [buildFold_filter] at hmem
      rcases buildFold_keys tree (files.filter scriptFile) {} f.path hmem with h'' | h''
      · simp [alKeys, ImportGraph.exports] at h''
      · rcases List.mem_map.mp h'' with ⟨g, hg, hgp⟩
        exact hscript f.path
          ⟨g, (List.mem_filter.mp hg).1, (List.mem_filter.mp hg).2, hgp.symm⟩ rfl
  refine ⟨build_import_graph_filter files tree, hkeysE, ?_, ?_, ?_, ?_, ?_, ?_, ?_, ?_⟩
  · intro hmem
    unfold build_import_graph at hmem
    rw [buildFold_filter] at hmem
    rcases buildFold_imports_keys tree (files.filter scriptFile) {} f.path hmem with h' | h'
    · simp [alKeys, ImportGraph.imports] at h'
    · rcases List.mem_map.mp h' with ⟨g, hg, hgp⟩
      exact hscript f.path
        ⟨g, (List.mem_filter.mp hg).1, (List.mem_filter.mp hg).2, hgp.symm⟩ rfl
  · intro v hv hvf
    exact hkeysE (hvf ▸ dead_code_file_mem hv)
  · intro v hv hvf
    rcases check_duplicate_functions_file hv with ⟨g, hg, hs, hvp⟩
    exact hscript v.file ⟨g, hg, hs, hvp⟩ hvf
  · intro v hv hvf
    rcases check_complexity_file hv with ⟨g, hg, hs, hvp⟩
    exact hscript v.file ⟨g, hg, hs, hvp⟩ hvf
  · intro v hv hvf
    rcases check_nesting_file hv with ⟨g, hg, hs, hvp⟩
    exact hscript v.file ⟨g, hg, hs, hvp⟩ hvf
  · intro v hv hvf
    rcases check_long_functions_file hv with ⟨g, hg, hs, hvp⟩
    exact hscript v.file ⟨g, hg, hs, hvp⟩ hvf
  · intro v hv hvf
    rcases check_console_leaks_file hv with ⟨g, hg, hs, hvp⟩
    exact hscript v.file ⟨g, hg, hs, hvp⟩ hvf
  · intro v hv hvf
    rcases check_empty_catch_file hv with ⟨g, hg, hs, hvp⟩
    exact hscript v.file ⟨g, hg, hs, hvp⟩ hvf

/-- Witness for `script_only_checks` at a `.jsx` file full of would-be
findings (exports, console calls, an empty catch) sitting next to a `.js`
file, checked at the jsx file. -/
theorem script_only_checks_witness :
    ((([⟨"c.jsx", 2, "h1", 500, "export function gone() \x7b console.log(1) \x7d try \x7b\x7d catch (e) \x7b \x7d"⟩,
        ⟨"m.js", 1, "h2", 500, "import \x7b y \x7d from './c.jsx'"⟩] : List FileInfo).map
        FileInfo.path).Nodup ∧
      (⟨"c.jsx", 2, "h1", 500, "export function gone() \x7b console.log(1) \x7d try \x7b\x7d catch (e) \x7b \x7d"⟩ : FileInfo) ∈
        ([⟨"c.jsx", 2, "h1", 500, "export function gone() \x7b console.log(1) \x7d try \x7b\x7d catch (e) \x7b \x7d"⟩,
          ⟨"m.js", 1, "h2", 500, "import \x7b y \x7d from './c.jsx'"⟩] : List FileInfo) ∧
      scriptFile (⟨"c.jsx", 2, "h1", 500, "export function gone() \x7b console.log(1) \x7d try \x7b\x7d catch (e) \x7b \x7d"⟩ : FileInfo) = false) ∧
    "c.jsx" ∉ alKeys (build_import_graph
      [⟨"c.jsx", 2, "h1", 500, "export function gone() \x7b console.log(1) \x7d try \x7b\x7d catch (e) \x7b \x7d"⟩,
       ⟨"m.js", 1, "h2", 500, "import \x7b y \x7d from './c.jsx'"⟩]
      [⟨"c.jsx", true, true, "export function gone() \x7b console.log(1) \x7d try \x7b\x7d catch (e) \x7b \x7d"⟩,
       ⟨"m.js", true, true, "import \x7b y \x7d from './c.jsx'"⟩]).exports :=
  ⟨⟨by decide, by decide, by decide⟩,
    (script_only_checks
      [⟨"c.jsx", 2, "h1", 500, "export function gone() \x7b console.log(1) \x7d try \x7b\x7d catch (e) \x7b \x7d"⟩,
       ⟨"m.js", 1, "h2", 500, "import \x7b y \x7d from './c.jsx'"⟩]
      [⟨"c.jsx", true, true, "export function gone() \x7b console.log(1) \x7d try \x7b\x7d catch (e) \x7b \x7d"⟩,
       ⟨"m.js", true, true, "import \x7b y \x7d from './c.jsx'"⟩]
      (by decide)
      ⟨"c.jsx", 2, "h1", 500, "export function gone() \x7b console.log(1) \x7d try \x7b\x7d catch (e) \x7b \x7d"⟩
      (by decide) (by decide)).2.1⟩

end EntropyCheck
